import Mathlib

/-!
Verification of the `zohar` event-emitter core (`src/eventEmitter.ts`).

The TypeScript module is embedded shallowly:

* A JavaScript `Map` is an insertion-ordered association list.  All maps
  built by the emitter have strictly increasing keys (registration indices
  are handed out by a monotone counter), so the `Map.forEach` iteration
  semantics — entries deleted before being visited are skipped, entries
  appended during iteration are visited — is captured by a cursor that
  remembers the last visited key and always moves to the first live entry
  with a larger key.
* The per-event slot (`ListenersMapEntry`) stores its listener map by
  reference in TypeScript; an in-progress `emit` keeps iterating that map
  object even if the slot is meanwhile dropped from (or re-created in) the
  registry.  The embedding therefore gives listener maps identity through a
  heap (`heap : List (List (Nat × ListenersEntry))`), with slots holding an
  index into the heap.
* Listeners and predicates are arbitrary functions in TypeScript.  Here a
  listener entry carries a numeric id (for the observation trace) plus a
  list of deeply-embedded side effects (`Act`): subscribing a listener,
  calling an unsubscribe handle, unsubscribing all, forwarding to a wrapped
  listener (`once`), resolving a deferred value (`awaited`).  Predicates
  are numeric codes interpreted by an environment `penv : Nat → Nat → Bool`;
  every predicate evaluation is recorded in the trace.
* Event payloads are `Nat` (the emitter is payload-polymorphic and never
  inspects the payload).
* An unsubscribe handle returned by `subscribe` is a closure capturing the
  event name and the assigned registration index and reading the shared
  registry reference; its behaviour is fully determined by the pair
  `(eventName, index)`, which is how handles are represented here.
-/

namespace Zohar

/-- Side effects a listener may perform while being invoked.  Listeners
subscribed re-entrantly are plain recording listeners (empty action list),
matching every scenario exercised by the specification. -/
inductive Act where
  | subscribeAct (name : String) (listener : Nat) (predicate : Option Nat)
  | unsubAct (name : String) (index : Nat)
  | unsubscribeAllAct (name : Option String)
  | callAct (listener : Nat)
  | resolveAct (pid : Nat)
deriving Repr, DecidableEq

/-- `ListenersEntry` from the source: the stored listener (identified by a
numeric code plus its effect script) and the optional predicate code. -/
structure ListenersEntry where
  listener : Nat
  acts : List Act
  predicate : Option Nat
deriving Repr, DecidableEq

/-- `ListenersMapEntry` from the source: the monotone index counter and the
listener `Map`, the latter held by reference (an index into the heap). -/
structure ListenersMapEntry where
  currentIndex : Nat
  listenersId : Nat
deriving Repr, DecidableEq

/-- Observable events: a registry-driven listener invocation (with the
registration index it was stored under), a predicate evaluation, a direct
call of a wrapped listener by the `once` adapter, and the resolution of the
`awaited` deferred value. -/
inductive Ev where
  | invoke (index listener : Nat) (name : String) (data : Nat)
  | predCall (predicate data : Nat) (result : Bool)
  | call (listener : Nat) (name : String) (data : Nat)
  | resolve (pid data : Nat)
deriving Repr, DecidableEq

/-- The whole emitter state: the shared `eventsStore` variable (absent or an
`EventsMap`, i.e. an insertion-ordered association list), the heap of
listener-map objects, and the observation trace. -/
structure EmitterState where
  eventsStore : Option (List (String × ListenersMapEntry))
  heap : List (List (Nat × ListenersEntry))
  trace : List Ev
deriving Repr, DecidableEq

/-- The state before any subscription: no registry, no allocated maps. -/
def init : EmitterState := ⟨none, [], []⟩

/-- JavaScript `Map.get`: first entry with the given key. -/
def mapGet {κ α : Type} [DecidableEq κ] : List (κ × α) → κ → Option α
  | [], _ => none
  | (k', v) :: rest, k => if k' = k then some v else mapGet rest k

/-- JavaScript `Map.set`: replace in place if the key is present, else
append at the end (insertion order). -/
def mapSet {κ α : Type} [DecidableEq κ] : List (κ × α) → κ → α → List (κ × α)
  | [], k, v => [(k, v)]
  | (k', v') :: rest, k, v =>
      if k' = k then (k, v) :: rest else (k', v') :: mapSet rest k v

/-- JavaScript `Map.has`. -/
def mapHasKey {κ α : Type} [DecidableEq κ] : List (κ × α) → κ → Bool
  | [], _ => false
  | (k', _) :: rest, k => if k' = k then true else mapHasKey rest k

/-- JavaScript `Map.delete` (the resulting map; the `Boolean` result of
`delete` is `mapHasKey` of the original). -/
def mapDelete {κ α : Type} [DecidableEq κ] : List (κ × α) → κ → List (κ × α)
  | [], _ => []
  | (k', v) :: rest, k =>
      if k' = k then mapDelete rest k else (k', v) :: mapDelete rest k

/-- Dereference a listener-map object. -/
def heapGet (h : List (List (Nat × ListenersEntry))) (i : Nat) :
    List (Nat × ListenersEntry) :=
  h.getD i []

/-- Append one event to the trace. -/
def pushEv (ev : Ev) (st : EmitterState) : EmitterState :=
  { st with trace := st.trace ++ [ev] }

/-- `subscribe` (source lines 467–505): resolve the store and the slot
(allocating a fresh listener map when the slot is absent), store the entry
at `currentIndex`, bump the counter, commit.  Returns the registration
index captured by the unsubscribe closure together with the new state. -/
def subscribeFn (name : String) (entry : ListenersEntry) (st : EmitterState) :
    Nat × EmitterState :=
  let store := st.eventsStore.getD []
  match mapGet store name with
  | none =>
      let mid := st.heap.length
      (0, { st with
              eventsStore := some (mapSet store name ⟨1, mid⟩)
              heap := st.heap ++ [[(0, entry)]] })
  | some slot =>
      let index := slot.currentIndex
      let m := heapGet st.heap slot.listenersId
      (index, { st with
                  eventsStore :=
                    some (mapSet store name ⟨index + 1, slot.listenersId⟩)
                  heap := st.heap.set slot.listenersId (mapSet m index entry) })

/-- The unsubscribe closure returned by `subscribe` (source lines 488–504),
as a function of its captured `(eventName, index)` pair: absent store or
absent slot yield `false`; otherwise delete the index from the slot's map,
drop the slot if it became empty, drop the store if it became empty, and
return whether the delete removed an entry. -/
def unsubFn (name : String) (index : Nat) (st : EmitterState) :
    Bool × EmitterState :=
  match st.eventsStore with
  | none => (false, st)
  | some store =>
      match mapGet store name with
      | none => (false, st)
      | some slot =>
          let m := heapGet st.heap slot.listenersId
          let m' := mapDelete m index
          let store' := if m' = [] then mapDelete store name else store
          (mapHasKey m index,
            { st with
                eventsStore := if store' = [] then none else some store'
                heap := st.heap.set slot.listenersId m' })

/-- `unsubscribeAll` (source lines 528–543): without a name, discard the
whole store; with a name, delete that slot and discard the store if it
became empty.  No-op when the store is absent. -/
def unsubscribeAllFn (name : Option String) (st : EmitterState) : EmitterState :=
  match st.eventsStore with
  | none => st
  | some store =>
      match name with
      | none => { st with eventsStore := none }
      | some n =>
          let store' := mapDelete store n
          { st with eventsStore := if store' = [] then none else some store' }

/-- Run one listener side effect.  `callAct` and `resolveAct` receive the
event name and payload of the invocation that triggered them. -/
def applyAct (name : String) (data : Nat) (st : EmitterState) : Act → EmitterState
  | .subscribeAct n c p => (subscribeFn n ⟨c, [], p⟩ st).2
  | .unsubAct n i => (unsubFn n i st).2
  | .unsubscribeAllAct n => unsubscribeAllFn n st
  | .callAct c => pushEv (.call c name data) st
  | .resolveAct p => pushEv (.resolve p data) st

/-- Record the invocation of a stored listener and run its effects. -/
def invokeEntry (name : String) (data k : Nat) (e : ListenersEntry)
    (st : EmitterState) : EmitterState :=
  e.acts.foldl (applyAct name data) (pushEv (.invoke k e.listener name data) st)

/-- One `forEach` visit (source lines 519–524): evaluate the predicate if
present (recording the evaluation), skip the listener when it returns
`false`, invoke it otherwise. -/
def visitEntry (penv : Nat → Nat → Bool) (name : String) (data k : Nat)
    (e : ListenersEntry) (st : EmitterState) : EmitterState :=
  match e.predicate with
  | some p =>
      let r := penv p data
      let st1 := pushEv (.predCall p data r) st
      if r then invokeEntry name data k e st1 else st1
  | none => invokeEntry name data k e st

/-- Whether a key lies strictly beyond the iteration cursor. -/
def cursorLt : Option Nat → Nat → Bool
  | none, _ => true
  | some c, k => c < k

/-- The next entry `Map.forEach` visits: the first live entry beyond the
cursor (maps built by the emitter have strictly increasing keys, so this is
exactly the positional JavaScript iterator). -/
def findNext : List (Nat × ListenersEntry) → Option Nat → Option (Nat × ListenersEntry)
  | [], _ => none
  | (k, e) :: rest, cursor =>
      if cursorLt cursor k then some (k, e) else findNext rest cursor

/-- Live iteration of `Map.forEach` over the map object `mid`: re-read the
(possibly mutated) map at every step, visit the first entry past the
cursor.  `fuel` bounds the number of visits; a listener that keeps
subscribing fresh listeners to the event being emitted would make the
original `forEach` run forever as well. -/
def forEachLive (penv : Nat → Nat → Bool) (fuel mid : Nat) (name : String)
    (data : Nat) (cursor : Option Nat) (st : EmitterState) : EmitterState :=
  match fuel with
  | 0 => st
  | Nat.succ f =>
      match findNext (heapGet st.heap mid) cursor with
      | none => st
      | some (k, e) =>
          forEachLive penv f mid name data (some k) (visitEntry penv name data k e st)

/-- `emit` (source lines 508–525): no-op when the store or the slot is
absent, otherwise iterate the slot's listener-map object. -/
def emitFn (penv : Nat → Nat → Bool) (fuel : Nat) (name : String) (data : Nat)
    (st : EmitterState) : EmitterState :=
  match st.eventsStore with
  | none => st
  | some store =>
      match mapGet store name with
      | none => st
      | some slot => forEachLive penv fuel slot.listenersId name data none st

/-- A top-level call against the emitter triple. -/
inductive Op where
  | subscribeOp (name : String) (entry : ListenersEntry)
  | unsubOp (name : String) (index : Nat)
  | unsubscribeAllOp (name : Option String)
  | emitOp (name : String) (data : Nat)
deriving Repr, DecidableEq

/-- Run one top-level call. -/
def runOp (penv : Nat → Nat → Bool) (fuel : Nat) (st : EmitterState) :
    Op → EmitterState
  | .subscribeOp n e => (subscribeFn n e st).2
  | .unsubOp n i => (unsubFn n i st).2
  | .unsubscribeAllOp n => unsubscribeAllFn n st
  | .emitOp n d => emitFn penv fuel n d st

/-- Run a sequence of top-level calls. -/
def runOps (penv : Nat → Nat → Bool) (fuel : Nat) (ops : List Op)
    (st : EmitterState) : EmitterState :=
  ops.foldl (runOp penv fuel) st

/-- The registration index the next `subscribe` for `name` will assign —
what the self-referencing closures of `once`/`awaited` capture. -/
def peekIndex (st : EmitterState) (name : String) : Nat :=
  match st.eventsStore with
  | none => 0
  | some store =>
      match mapGet store name with
      | none => 0
      | some slot => slot.currentIndex

/-- The effect script of the `once` adapter (source lines 586–589): call
the captured unsubscribe handle first, then forward to the wrapped
listener. -/
def onceActs (name : String) (index listener : Nat) : List Act :=
  [Act.unsubAct name index, Act.callAct listener]

/-- `once(subscribe)(name, listener)` (source lines 583–590): subscribe an
adapter, without predicate, that unsubscribes itself and then forwards. -/
def onceFn (name : String) (adapterCode listener : Nat) (st : EmitterState) :
    EmitterState :=
  (subscribeFn name ⟨adapterCode, onceActs name (peekIndex st name) listener, none⟩ st).2

/-- The effect script of the `awaited` adapter (source lines 631–635):
unsubscribe first, then resolve the deferred value with the payload. -/
def awaitedActs (name : String) (index pid : Nat) : List Act :=
  [Act.unsubAct name index, Act.resolveAct pid]

/-- `awaited(subscribe)(name)` (source lines 628–636): subscribe an
adapter, without predicate, that unsubscribes itself and resolves the
deferred value `pid`. -/
def awaitedFn (name : String) (adapterCode pid : Nat) (st : EmitterState) :
    EmitterState :=
  (subscribeFn name ⟨adapterCode, awaitedActs name (peekIndex st name) pid, none⟩ st).2

/-- A listener entry that only records its invocation. -/
def pureEntry (c : Nat) : ListenersEntry := ⟨c, [], none⟩

/-- Subscribe a list of entries to one event, left to right. -/
def subscribeList (name : String) (es : List ListenersEntry) (st : EmitterState) :
    EmitterState :=
  es.foldl (fun s e => (subscribeFn name e s).2) st

/-- The listener map obtained by storing `es` at consecutive indices from `i`. -/
def indexedFrom : List ListenersEntry → Nat → List (Nat × ListenersEntry)
  | [], _ => []
  | e :: es, i => (i, e) :: indexedFrom es (i + 1)

/-- The registry-invocation events produced by invoking the listeners
`codes` in order starting at registration index `i`. -/
def invokesFrom (name : String) (data : Nat) : List Nat → Nat → List Ev
  | [], _ => []
  | c :: cs, i => Ev.invoke i c name data :: invokesFrom name data cs (i + 1)

section MapLemmas

variable {κ α : Type} [DecidableEq κ]

theorem mapGet_eq_none {m : List (κ × α)} {k : κ} :
    mapGet m k = none ↔ ∀ p ∈ m, p.1 ≠ k := by
  induction m with
  | nil => simp [mapGet]
  | cons q rest ih =>
      obtain ⟨k', v⟩ := q
      by_cases h : k' = k <;> simp [mapGet, h, ih]

theorem mapGet_some_mem {m : List (κ × α)} {k : κ} {v : α}
    (h : mapGet m k = some v) : (k, v) ∈ m := by
  induction m with
  | nil => simp [mapGet] at h
  | cons q rest ih =>
      obtain ⟨k', v'⟩ := q
      by_cases hk : k' = k
      · subst hk
        simp [mapGet] at h
        simp [h]
      · simp [mapGet, hk] at h
        exact List.mem_cons_of_mem _ (ih h)

theorem mapSet_eq_append {m : List (κ × α)} {k : κ} {v : α}
    (h : ∀ p ∈ m, p.1 ≠ k) : mapSet m k v = m ++ [(k, v)] := by
  induction m with
  | nil => simp [mapSet]
  | cons q rest ih =>
      have hq : q.1 ≠ k := h q (List.mem_cons_self _ _)
      obtain ⟨k', v'⟩ := q
      simp only [mapSet, if_neg hq, List.cons_append, List.cons.injEq, true_and]
      exact ih fun p hp => h p (List.mem_cons_of_mem _ hp)

theorem mapSet_ne_nil {m : List (κ × α)} {k : κ} {v : α} :
    mapSet m k v ≠ [] := by
  cases m with
  | nil => simp [mapSet]
  | cons q rest =>
      obtain ⟨k', v'⟩ := q
      by_cases h : k' = k <;> simp [mapSet, h]

theorem mem_mapSet {m : List (κ × α)} {k : κ} {v : α} {p : κ × α}
    (h : p ∈ mapSet m k v) : p = (k, v) ∨ p ∈ m := by
  induction m with
  | nil => simp [mapSet] at h; simp [h]
  | cons q rest ih =>
      obtain ⟨k', v'⟩ := q
      by_cases hk : k' = k
      · simp [mapSet, hk] at h
        rcases h with h | h
        · exact Or.inl (by simp [h])
        · exact Or.inr (List.mem_cons_of_mem _ h)
      · simp only [mapSet, if_neg hk, List.mem_cons] at h
        rcases h with h | h
        · exact Or.inr (by simp [h])
        · rcases ih h with h' | h'
          · exact Or.inl h'
          · exact Or.inr (List.mem_cons_of_mem _ h')

theorem mapGet_mapSet_ne {m : List (κ × α)} {k k' : κ} {v : α}
    (h : k ≠ k') : mapGet (mapSet m k v) k' = mapGet m k' := by
  induction m with
  | nil => simp [mapSet, mapGet, h]
  | cons q rest ih =>
      obtain ⟨k0, v0⟩ := q
      by_cases hk : k0 = k
      · subst hk
        simp [mapSet, mapGet, h, Ne.symm h]
      · by_cases hk' : k0 = k' <;> simp [mapSet, mapGet, h, Ne.symm h, hk, hk', ih]

theorem mapDelete_eq_filter (m : List (κ × α)) (k : κ) :
    mapDelete m k = m.filter (fun p => decide (p.1 ≠ k)) := by
  induction m with
  | nil => simp [mapDelete]
  | cons q rest ih =>
      obtain ⟨k', v⟩ := q
      by_cases h : k' = k <;> simp [mapDelete, h, ih, List.filter]

theorem mapDelete_sublist (m : List (κ × α)) (k : κ) :
    (mapDelete m k).Sublist m := by
  rw [mapDelete_eq_filter]
  exact List.filter_sublist _

theorem mem_mapDelete {m : List (κ × α)} {k : κ} {p : κ × α} :
    p ∈ mapDelete m k ↔ p ∈ m ∧ p.1 ≠ k := by
  simp [mapDelete_eq_filter, List.mem_filter]

theorem mapGet_mapDelete_self {m : List (κ × α)} {k : κ} :
    mapGet (mapDelete m k) k = none := by
  rw [mapGet_eq_none]
  intro p hp
  exact (mem_mapDelete.1 hp).2

theorem mapGet_mapDelete_ne {m : List (κ × α)} {k k' : κ} (h : k ≠ k') :
    mapGet (mapDelete m k) k' = mapGet m k' := by
  induction m with
  | nil => simp [mapDelete]
  | cons q rest ih =>
      obtain ⟨k0, v⟩ := q
      by_cases hk : k0 = k
      · subst hk
        simp [mapDelete, mapGet, h, Ne.symm h, ih]
      · by_cases hk' : k0 = k' <;> simp [mapDelete, mapGet, h, Ne.symm h, hk, hk', ih]

theorem mapHasKey_eq_false {m : List (κ × α)} {k : κ} :
    mapHasKey m k = false ↔ ∀ p ∈ m, p.1 ≠ k := by
  induction m with
  | nil => simp [mapHasKey]
  | cons q rest ih =>
      obtain ⟨k', v⟩ := q
      by_cases h : k' = k <;> simp [mapHasKey, h, ih]

theorem mapHasKey_mapDelete_self {m : List (κ × α)} {k : κ} :
    mapHasKey (mapDelete m k) k = false := by
  rw [mapHasKey_eq_false]
  intro p hp
  exact (mem_mapDelete.1 hp).2

theorem mapHasKey_mapDelete_of_false {m : List (κ × α)} {k j : κ}
    (h : mapHasKey m k = false) : mapHasKey (mapDelete m j) k = false := by
  rw [mapHasKey_eq_false] at h ⊢
  intro p hp
  exact h p (mem_mapDelete.1 hp).1

theorem mapDelete_eq_self {m : List (κ × α)} {k : κ}
    (h : ∀ p ∈ m, p.1 ≠ k) : mapDelete m k = m := by
  induction m with
  | nil => simp [mapDelete]
  | cons q rest ih =>
      have hq : q.1 ≠ k := h q (List.mem_cons_self _ _)
      obtain ⟨k', v⟩ := q
      simp only [mapDelete, if_neg hq, List.cons.injEq, true_and]
      exact ih fun p hp => h p (List.mem_cons_of_mem _ hp)

theorem mapDelete_append (a b : List (κ × α)) (k : κ) :
    mapDelete (a ++ b) k = mapDelete a k ++ mapDelete b k := by
  induction a with
  | nil => simp [mapDelete]
  | cons q rest ih =>
      obtain ⟨k', v⟩ := q
      by_cases h : k' = k <;> simp [mapDelete, h, ih]

end MapLemmas

section HeapLemmas

theorem heapGet_append_lt {h : List (List (Nat × ListenersEntry))} {l} {i : Nat}
    (hi : i < h.length) : heapGet (h ++ l) i = heapGet h i := by
  unfold heapGet
  rw [List.getD_eq_getElem?_getD, List.getD_eq_getElem?_getD,
    List.getElem?_append_left hi]

theorem heapGet_append_len (h : List (List (Nat × ListenersEntry))) (x) :
    heapGet (h ++ [x]) h.length = x := by
  unfold heapGet
  rw [List.getD_eq_getElem?_getD, List.getElem?_append_right (Nat.le_refl _)]
  simp

theorem heapGet_set_self {h : List (List (Nat × ListenersEntry))} {i : Nat} {x}
    (hi : i < h.length) : heapGet (h.set i x) i = x := by
  unfold heapGet
  rw [List.getD_eq_getElem?_getD, List.getElem?_set_self' ]
  simp [List.getElem?_eq_getElem hi]

theorem heapGet_set_ne {h : List (List (Nat × ListenersEntry))} {i j : Nat} {x}
    (hij : i ≠ j) : heapGet (h.set i x) j = heapGet h j := by
  unfold heapGet
  rw [List.getD_eq_getElem?_getD, List.getD_eq_getElem?_getD,
    List.getElem?_set_ne hij]

theorem heapGet_mem {h : List (List (Nat × ListenersEntry))} {i : Nat}
    (hi : i < h.length) : heapGet h i ∈ h := by
  unfold heapGet
  rw [List.getD_eq_getElem?_getD, List.getElem?_eq_getElem hi]
  exact List.getElem_mem _

end HeapLemmas

section IterationLemmas

/-- The entries an in-progress `forEach` with cursor `cursor` has yet to
visit, in order. -/
def remainingOf (m : List (Nat × ListenersEntry)) (cursor : Option Nat) :
    List (Nat × ListenersEntry) :=
  m.filter (fun p => cursorLt cursor p.1)

/-- The iteration cursor after additionally visiting the entries `pre`. -/
def cursorAfter (cursor : Option Nat) (pre : List (Nat × ListenersEntry)) :
    Option Nat :=
  (pre.getLast?).elim cursor (fun p => some p.1)

/-- The key ordering of listener maps built by the emitter. -/
def AscKeys (m : List (Nat × ListenersEntry)) : Prop :=
  m.Pairwise (fun a b => a.1 < b.1)

theorem findNext_eq_head (m : List (Nat × ListenersEntry)) (cursor : Option Nat) :
    findNext m cursor = (remainingOf m cursor).head? := by
  induction m with
  | nil => simp [findNext, remainingOf]
  | cons q rest ih =>
      obtain ⟨k, e⟩ := q
      by_cases h : cursorLt cursor k = true
      · simp [findNext, remainingOf, h, List.filter_cons_of_pos]
      · rw [findNext, if_neg h, remainingOf,
          List.filter_cons_of_neg (by simpa using h)]
        exact ih

theorem cursorAfter_cons (cursor : Option Nat) (q : Nat × ListenersEntry)
    (pre : List (Nat × ListenersEntry)) :
    cursorAfter cursor (q :: pre) = cursorAfter (some q.1) pre := by
  cases pre with
  | nil => simp [cursorAfter]
  | cons r pr =>
      have h : (r :: pr).getLast? = some ((r :: pr).getLast (by simp)) :=
        List.getLast?_eq_getLast _ _
      simp [cursorAfter, List.getLast?_cons_cons, h]

theorem remainingOf_step {m : List (Nat × ListenersEntry)} (hasc : AscKeys m)
    {cursor : Option Nat} {k : Nat} {e : ListenersEntry}
    {rest : List (Nat × ListenersEntry)}
    (h : remainingOf m cursor = (k, e) :: rest) : remainingOf m (some k) = rest := by
  induction m with
  | nil => simp [remainingOf] at h
  | cons q t ih =>
      obtain ⟨k0, e0⟩ := q
      obtain ⟨h0, hasc'⟩ := List.pairwise_cons.1 hasc
      simp only [remainingOf, List.filter_cons] at h ⊢
      by_cases hc : cursorLt cursor k0 = true
      · rw [if_pos hc] at h
        injection h with h1 h2
        injection h1 with hk he
        subst hk; subst he
        rw [if_neg (by simp [cursorLt])]
        have hall : List.filter (fun p => cursorLt (some k0) p.1) t = t :=
          List.filter_eq_self.2 fun p hp => by
            have := h0 p hp
            simp only [cursorLt, decide_eq_true_eq]
            exact this
        have hall' : List.filter (fun p => cursorLt cursor p.1) t = t :=
          List.filter_eq_self.2 fun p hp => by
            cases cursor with
            | none => simp [cursorLt]
            | some c =>
                have hck : c < k0 := by simpa [cursorLt] using hc
                have hkp : (k0 : Nat) < p.1 := h0 p hp
                simp only [cursorLt, decide_eq_true_eq]
                omega
        rw [hall, ← h2, hall']
      · rw [if_neg hc] at h
        have hmem : (k, e) ∈ t := by
          have hfm : (k, e) ∈ List.filter (fun p => cursorLt cursor p.1) t := by
            rw [h]; exact List.mem_cons_self _ _
          exact (List.mem_filter.1 hfm).1
        have hk0k : k0 < k := h0 _ hmem
        rw [if_neg (by simp only [cursorLt, decide_eq_true_eq]; omega)]
        have := ih hasc' (by simpa [remainingOf] using h)
        simpa [remainingOf] using this

theorem remainingOf_after {m : List (Nat × ListenersEntry)} (hasc : AscKeys m) :
    ∀ (pre rest : List (Nat × ListenersEntry)) (cursor : Option Nat),
      remainingOf m cursor = pre ++ rest →
      remainingOf m (cursorAfter cursor pre) = rest := by
  intro pre
  induction pre with
  | nil => intro rest cursor h; simpa [cursorAfter] using h
  | cons q pre' ih =>
      intro rest cursor h
      obtain ⟨k, e⟩ := q
      have hstep : remainingOf m (some k) = pre' ++ rest :=
        remainingOf_step hasc (by simpa using h)
      rw [cursorAfter_cons]
      exact ih rest (some k) hstep

theorem visitEntry_pure {penv : Nat → Nat → Bool} {name : String} {data k : Nat}
    {e : ListenersEntry} {st : EmitterState}
    (ha : e.acts = []) (hp : e.predicate = none) :
    visitEntry penv name data k e st = pushEv (.invoke k e.listener name data) st := by
  simp [visitEntry, hp, invokeEntry, ha]

/-- Iterating a map whose not-yet-visited entries are all pure recorders
appends exactly their invocation events, in order, and leaves the registry
untouched. -/
theorem forEachLive_pure {penv : Nat → Nat → Bool} {mid : Nat} {name : String}
    {data : Nat} {m : List (Nat × ListenersEntry)} (hasc : AscKeys m) :
    ∀ (rest : List (Nat × ListenersEntry)) (cursor : Option Nat)
      (st : EmitterState) (fuel : Nat),
      heapGet st.heap mid = m →
      remainingOf m cursor = rest →
      (∀ p ∈ rest, p.2.acts = [] ∧ p.2.predicate = none) →
      rest.length ≤ fuel →
      forEachLive penv fuel mid name data cursor st
        = { st with trace := st.trace ++
              rest.map (fun p => Ev.invoke p.1 p.2.listener name data) } := by
  intro rest
  induction rest with
  | nil =>
      intro cursor st fuel hm hrem _ _
      cases fuel with
      | zero => simp [forEachLive]
      | succ f =>
          rw [forEachLive, hm, findNext_eq_head, hrem]
          simp
  | cons q rest' ih =>
      intro cursor st fuel hm hrem hpure hfuel
      obtain ⟨k, e⟩ := q
      cases fuel with
      | zero => simp at hfuel
      | succ f =>
          rw [forEachLive, hm, findNext_eq_head, hrem]
          simp only [List.head?_cons]
          have hq := hpure (k, e) (List.mem_cons_self _ _)
          rw [visitEntry_pure hq.1 hq.2]
          have hrem' : remainingOf m (some k) = rest' := remainingOf_step hasc hrem
          have hfuel' : rest'.length ≤ f := by simp at hfuel; omega
          rw [ih (some k) (pushEv (.invoke k e.listener name data) st) f
            (by simpa [pushEv] using hm) hrem'
            (fun p hp => hpure p (List.mem_cons_of_mem _ hp)) hfuel']
          simp [pushEv]

/-- Running a pure segment of the iteration first, then continuing: the
invocation events of the segment are appended and the cursor advances past
it. -/
theorem forEachLive_seg {penv : Nat → Nat → Bool} {mid : Nat} {name : String}
    {data : Nat} {m : List (Nat × ListenersEntry)} (hasc : AscKeys m) :
    ∀ (pre rest : List (Nat × ListenersEntry)) (cursor : Option Nat)
      (st : EmitterState) (fuel : Nat),
      heapGet st.heap mid = m →
      remainingOf m cursor = pre ++ rest →
      (∀ p ∈ pre, p.2.acts = [] ∧ p.2.predicate = none) →
      forEachLive penv (pre.length + fuel) mid name data cursor st
        = forEachLive penv fuel mid name data (cursorAfter cursor pre)
            { st with trace := st.trace ++
                pre.map (fun p => Ev.invoke p.1 p.2.listener name data) } := by
  intro pre
  induction pre with
  | nil =>
      intro rest cursor st fuel _ _ _
      simp [cursorAfter]
  | cons q pre' ih =>
      intro rest cursor st fuel hm hrem hpure
      obtain ⟨k, e⟩ := q
      have hlen : (((k, e) :: pre').length + fuel) = Nat.succ (pre'.length + fuel) := by
        simp [Nat.succ_add]
      rw [hlen, forEachLive, hm, findNext_eq_head, hrem]
      simp only [List.cons_append, List.head?_cons]
      have hq := hpure (k, e) (List.mem_cons_self _ _)
      rw [visitEntry_pure hq.1 hq.2]
      have hrem' : remainingOf m (some k) = pre' ++ rest :=
        remainingOf_step hasc (by simpa using hrem)
      rw [ih rest (some k) (pushEv (.invoke k e.listener name data) st) fuel
        (by simpa [pushEv] using hm) hrem'
        (fun p hp => hpure p (List.mem_cons_of_mem _ hp))]
      rw [cursorAfter_cons]
      simp [pushEv]

end IterationLemmas

section IndexedLemmas

theorem indexedFrom_append (es1 es2 : List ListenersEntry) (i : Nat) :
    indexedFrom (es1 ++ es2) i = indexedFrom es1 i ++ indexedFrom es2 (i + es1.length) := by
  induction es1 generalizing i with
  | nil => simp [indexedFrom]
  | cons e es ih =>
      simp [indexedFrom, ih, Nat.add_assoc, Nat.add_comm 1 es.length]

theorem indexedFrom_length (es : List ListenersEntry) (i : Nat) :
    (indexedFrom es i).length = es.length := by
  induction es generalizing i with
  | nil => simp [indexedFrom]
  | cons e es ih => simp [indexedFrom, ih]

theorem indexedFrom_key_bounds {es : List ListenersEntry} {i : Nat}
    {p : Nat × ListenersEntry} (hp : p ∈ indexedFrom es i) :
    i ≤ p.1 ∧ p.1 < i + es.length := by
  induction es generalizing i with
  | nil => simp [indexedFrom] at hp
  | cons e es ih =>
      simp only [indexedFrom, List.mem_cons] at hp
      rcases hp with rfl | hp
      · simp
      · have := ih hp
        simp only [List.length_cons]
        omega

theorem indexedFrom_asc (es : List ListenersEntry) (i : Nat) :
    AscKeys (indexedFrom es i) := by
  induction es generalizing i with
  | nil => exact List.Pairwise.nil
  | cons e es ih =>
      refine List.pairwise_cons.2 ⟨?_, ih (i + 1)⟩
      intro p hp
      have := (indexedFrom_key_bounds hp).1
      simpa using Nat.lt_of_lt_of_le (Nat.lt_succ_self i) this

theorem indexedFrom_pure (codes : List Nat) (i : Nat) :
    ∀ p ∈ indexedFrom (codes.map pureEntry) i, p.2.acts = [] ∧ p.2.predicate = none := by
  induction codes generalizing i with
  | nil => simp [indexedFrom]
  | cons c cs ih =>
      intro p hp
      simp only [List.map_cons, indexedFrom, List.mem_cons] at hp
      rcases hp with rfl | hp
      · simp [pureEntry]
      · exact ih (i + 1) p hp

theorem indexedFrom_map_invoke (name : String) (data : Nat) (codes : List Nat) (i : Nat) :
    (indexedFrom (codes.map pureEntry) i).map
        (fun p => Ev.invoke p.1 p.2.listener name data)
      = invokesFrom name data codes i := by
  induction codes generalizing i with
  | nil => simp [indexedFrom, invokesFrom]
  | cons c cs ih => simp [indexedFrom, invokesFrom, pureEntry, ih]

theorem remainingOf_all {m : List (Nat × ListenersEntry)}
    (h : ∀ p ∈ m, cursorLt c p.1 = true) : remainingOf m c = m :=
  List.filter_eq_self.2 h

theorem remainingOf_none (m : List (Nat × ListenersEntry)) :
    remainingOf m none = m :=
  remainingOf_all (by intro p _; simp [cursorLt])

end IndexedLemmas

section SubscribeLemmas

theorem subscribeFn_init (name : String) (e : ListenersEntry) :
    subscribeFn name e init = (0, ⟨some [(name, ⟨1, 0⟩)], [[(0, e)]], []⟩) := by
  simp [subscribeFn, init, mapGet, mapSet]

theorem subscribeFn_slot0 (name : String) (e : ListenersEntry) (n : Nat)
    (m : List (Nat × ListenersEntry)) (tr : List Ev) (hm : ∀ p ∈ m, p.1 ≠ n) :
    subscribeFn name e ⟨some [(name, ⟨n, 0⟩)], [m], tr⟩
      = (n, ⟨some [(name, ⟨n + 1, 0⟩)], [m ++ [(n, e)]], tr⟩) := by
  simp [subscribeFn, mapGet, mapSet, heapGet, mapSet_eq_append hm]

theorem subscribeList_slot (name : String) :
    ∀ (es : List ListenersEntry) (n : Nat) (m : List (Nat × ListenersEntry)) (tr : List Ev),
      (∀ p ∈ m, p.1 < n) →
      subscribeList name es ⟨some [(name, ⟨n, 0⟩)], [m], tr⟩
        = ⟨some [(name, ⟨n + es.length, 0⟩)], [m ++ indexedFrom es n], tr⟩ := by
  intro es
  induction es with
  | nil => intro n m tr _; simp [subscribeList, indexedFrom]
  | cons e es ih =>
      intro n m tr hm
      have hne : ∀ p ∈ m, p.1 ≠ n := fun p hp => Nat.ne_of_lt (hm p hp)
      have hstep : (subscribeFn name e ⟨some [(name, ⟨n, 0⟩)], [m], tr⟩).2
          = ⟨some [(name, ⟨n + 1, 0⟩)], [m ++ [(n, e)]], tr⟩ := by
        rw [subscribeFn_slot0 name e n m tr hne]
      have hfold : subscribeList name (e :: es) ⟨some [(name, ⟨n, 0⟩)], [m], tr⟩
          = subscribeList name es ⟨some [(name, ⟨n + 1, 0⟩)], [m ++ [(n, e)]], tr⟩ := by
        simp [subscribeList, hstep]
      rw [hfold, ih (n + 1) (m ++ [(n, e)]) tr]
      · simp [indexedFrom]
        omega
      · intro p hp
        rcases List.mem_append.1 hp with hp | hp
        · exact Nat.lt_succ_of_lt (hm p hp)
        · simp at hp
          simp [hp]

theorem subscribeList_init (name : String) (e : ListenersEntry) (es : List ListenersEntry) :
    subscribeList name (e :: es) init
      = ⟨some [(name, ⟨es.length + 1, 0⟩)], [indexedFrom (e :: es) 0], []⟩ := by
  have h1 : subscribeList name (e :: es) init
      = subscribeList name es ⟨some [(name, ⟨1, 0⟩)], [[(0, e)]], []⟩ := by
    simp [subscribeList, subscribeFn_init]
  rw [h1, subscribeList_slot name es 1 [(0, e)] [] (by simp)]
  simp [indexedFrom, Nat.add_comm]

theorem subscribeList_init_ne (name : String) {es : List ListenersEntry} (h : es ≠ []) :
    subscribeList name es init
      = ⟨some [(name, ⟨es.length, 0⟩)], [indexedFrom es 0], []⟩ := by
  cases es with
  | nil => exact absurd rfl h
  | cons e es' => rw [subscribeList_init]; simp

end SubscribeLemmas

section EmitLemmas

theorem emitFn_none {penv : Nat → Nat → Bool} {fuel : Nat} {name : String}
    {data : Nat} {st : EmitterState} (h : st.eventsStore = none) :
    emitFn penv fuel name data st = st := by
  simp [emitFn, h]

theorem emitFn_noSlot {penv : Nat → Nat → Bool} {fuel : Nat} {name : String}
    {data : Nat} {st : EmitterState} {store} (hst : st.eventsStore = some store)
    (hslot : mapGet store name = none) : emitFn penv fuel name data st = st := by
  simp [emitFn, hst, hslot]

theorem emitFn_slot {penv : Nat → Nat → Bool} {fuel : Nat} {name : String}
    {data : Nat} {st : EmitterState} {store} {slot}
    (hst : st.eventsStore = some store) (hslot : mapGet store name = some slot) :
    emitFn penv fuel name data st
      = forEachLive penv fuel slot.listenersId name data none st := by
  simp [emitFn, hst, hslot]

theorem emits_fold_none (penv : Nat → Nat → Bool) (fuel : Nat) :
    ∀ (ems : List (String × Nat)) (st : EmitterState), st.eventsStore = none →
      ems.foldl (fun s q => emitFn penv fuel q.1 q.2 s) st = st := by
  intro ems
  induction ems with
  | nil => intro st _; rfl
  | cons q rest ih =>
      intro st h
      simp only [List.foldl_cons, emitFn_none h]
      exact ih st h

theorem emits_fold_none_single (penv : Nat → Nat → Bool) (fuel : Nat) (name : String) :
    ∀ (ds : List Nat) (st : EmitterState), st.eventsStore = none →
      ds.foldl (fun s d => emitFn penv fuel name d s) st = st := by
  intro ds
  induction ds with
  | nil => intro st _; rfl
  | cons d rest ih =>
      intro st h
      simp only [List.foldl_cons, emitFn_none h]
      exact ih st h

end EmitLemmas

section StepLemmas

theorem forEachLive_step {penv : Nat → Nat → Bool} {f mid : Nat} {name : String}
    {data : Nat} {cursor : Option Nat} {st : EmitterState} {k : Nat}
    {e : ListenersEntry} (h : findNext (heapGet st.heap mid) cursor = some (k, e)) :
    forEachLive penv (Nat.succ f) mid name data cursor st
      = forEachLive penv f mid name data (some k) (visitEntry penv name data k e st) := by
  rw [forEachLive, h]

theorem filter_cursor_all {k : Nat} {m : List (Nat × ListenersEntry)}
    (h : ∀ p ∈ m, k < p.1) :
    List.filter (fun p => cursorLt (some k) p.1) m = m :=
  List.filter_eq_self.2 fun p hp => by
    simp only [cursorLt, decide_eq_true_eq]
    exact h p hp

theorem filter_cursor_nil {k : Nat} {m : List (Nat × ListenersEntry)}
    (h : ∀ p ∈ m, p.1 ≤ k) :
    List.filter (fun p => cursorLt (some k) p.1) m = [] :=
  List.filter_eq_nil_iff.2 fun p hp => by
    have := h p hp
    simp only [cursorLt, decide_eq_true_eq]
    omega

theorem remainingOf_drop_head {k : Nat} {e : ListenersEntry}
    {m : List (Nat × ListenersEntry)} (h : ∀ p ∈ m, k < p.1) :
    remainingOf ((k, e) :: m) (some k) = m := by
  simp only [remainingOf, List.filter_cons]
  rw [if_neg (by simp [cursorLt]), filter_cursor_all h]

end StepLemmas

/-- C3: for every event name and every N listeners subscribed to it in
order (none unsubscribed, no predicates), a single `emit` invokes exactly
those listeners, in ascending registration-index order `0, 1, …, N-1`,
each invocation carrying the event name and the emitted payload. -/
theorem emit_invokes_in_subscription_order (penv : Nat → Nat → Bool)
    (name : String) (data : Nat) (codes : List Nat) :
    (emitFn penv (codes.length + 1) name data
        (subscribeList name (codes.map pureEntry) init)).trace
      = invokesFrom name data codes 0 := by
  cases codes with
  | nil => rfl
  | cons c cs =>
      rw [List.map_cons, subscribeList_init]
      simp only [List.length_map]
      have hslot : mapGet [(name, (⟨cs.length + 1, 0⟩ : ListenersMapEntry))] name
          = some ⟨cs.length + 1, 0⟩ := by simp [mapGet]
      rw [emitFn_slot rfl hslot]
      have hasc := indexedFrom_asc (pureEntry c :: List.map pureEntry cs) 0
      have hm : heapGet
          (⟨some [(name, ⟨cs.length + 1, 0⟩)],
            [indexedFrom (pureEntry c :: List.map pureEntry cs) 0], []⟩ : EmitterState).heap 0
          = indexedFrom (pureEntry c :: List.map pureEntry cs) 0 := by
        simp [heapGet]
      rw [forEachLive_pure hasc (indexedFrom (pureEntry c :: List.map pureEntry cs) 0)
        none _ _ hm (remainingOf_none _)
        (by
          intro p hp
          exact indexedFrom_pure (c :: cs) 0 p (by simpa using hp))
        (by simp [indexedFrom_length])]
      have := indexedFrom_map_invoke name data (c :: cs) 0
      simp only [List.map_cons] at this
      simp [this]

section CombinatorLemmas

theorem onceFn_init (name : String) (aCode L : Nat) :
    onceFn name aCode L init
      = ⟨some [(name, ⟨1, 0⟩)], [[(0, ⟨aCode, onceActs name 0 L, none⟩)]], []⟩ := by
  rw [onceFn, show peekIndex init name = 0 from rfl, subscribeFn_init]

theorem awaitedFn_init (name : String) (aCode pid : Nat) :
    awaitedFn name aCode pid init
      = ⟨some [(name, ⟨1, 0⟩)], [[(0, ⟨aCode, awaitedActs name 0 pid, none⟩)]], []⟩ := by
  rw [awaitedFn, show peekIndex init name = 0 from rfl, subscribeFn_init]

theorem once_first_emit (penv : Nat → Nat → Bool) (name : String) (aCode L d : Nat) :
    emitFn penv 2 name d (onceFn name aCode L init)
      = ⟨none, [[]], [Ev.invoke 0 aCode name d, Ev.call L name d]⟩ := by
  rw [onceFn_init]
  have hslot : mapGet [(name, (⟨1, 0⟩ : ListenersMapEntry))] name
      = some ⟨1, 0⟩ := by simp [mapGet]
  rw [emitFn_slot rfl hslot]
  simp [forEachLive, findNext, cursorLt, heapGet, visitEntry, invokeEntry,
    onceActs, applyAct, unsubFn, mapGet, mapDelete, mapHasKey, pushEv]

theorem awaited_first_emit (penv : Nat → Nat → Bool) (name : String) (aCode pid d : Nat) :
    emitFn penv 2 name d (awaitedFn name aCode pid init)
      = ⟨none, [[]], [Ev.invoke 0 aCode name d, Ev.resolve pid d]⟩ := by
  rw [awaitedFn_init]
  have hslot : mapGet [(name, (⟨1, 0⟩ : ListenersMapEntry))] name
      = some ⟨1, 0⟩ := by simp [mapGet]
  rw [emitFn_slot rfl hslot]
  simp [forEachLive, findNext, cursorLt, heapGet, visitEntry, invokeEntry,
    awaitedActs, applyAct, unsubFn, mapGet, mapDelete, mapHasKey, pushEv]

end CombinatorLemmas

/-- The `resolve` events of the deferred value `pid` within a trace. -/
def resolvesOf (pid : Nat) (tr : List Ev) : List Ev :=
  tr.filter fun ev =>
    match ev with
    | .resolve q _ => q == pid
    | _ => false

/-- The payload of the first emission with the given event name. -/
def firstPayload (name : String) : List (String × Nat) → Option Nat
  | [] => none
  | q :: rest => if q.1 = name then some q.2 else firstPayload name rest

/-- C6: a listener registered through `once` is invoked exactly once in
total across any nonempty sequence of emissions of the matching event: the
whole observable trace consists of one adapter invocation and one
forwarding call on the first emission, and nothing afterwards. -/
theorem once_invokes_exactly_once (penv : Nat → Nat → Bool) (name : String)
    (aCode L d : Nat) (ds : List Nat) :
    ((d :: ds).foldl (fun s d' => emitFn penv 2 name d' s)
        (onceFn name aCode L init)).trace
      = [Ev.invoke 0 aCode name d, Ev.call L name d] := by
  simp only [List.foldl_cons]
  rw [once_first_emit, emits_fold_none_single penv 2 name ds _ rfl]

/-- C7: the deferred value produced by `awaited` resolves exactly once,
with the payload of the first emission of the subscribed event name, and
stays pending (no resolution event at all) while only other event names
are emitted; it never rejects (the embedding has no rejection event and the
source only ever calls `resolve`). -/
theorem awaited_resolves_with_first_payload (penv : Nat → Nat → Bool)
    (name : String) (aCode pid : Nat) (ems : List (String × Nat)) :
    resolvesOf pid
        ((ems.foldl (fun s q => emitFn penv 2 q.1 q.2 s)
          (awaitedFn name aCode pid init))).trace
      = (firstPayload name ems).elim [] (fun d => [Ev.resolve pid d]) := by
  induction ems with
  | nil => simp [awaitedFn_init, resolvesOf, firstPayload]
  | cons q rest ih =>
      obtain ⟨n', d⟩ := q
      by_cases h : n' = name
      · subst h
        simp only [List.foldl_cons]
        rw [awaited_first_emit, emits_fold_none penv 2 rest _ rfl]
        simp [resolvesOf, firstPayload]
      · simp only [List.foldl_cons]
        have hno : emitFn penv 2 n' d (awaitedFn name aCode pid init)
            = awaitedFn name aCode pid init := by
          refine @emitFn_noSlot _ _ _ _ _ [(name, ⟨1, 0⟩)] ?_ ?_
          · rw [awaitedFn_init]
          · simp [mapGet, h, Ne.symm h]
        rw [hno]
        simpa [firstPayload, h] using ih

/-- C10: both the `once` and the `awaited` adapter call their own captured
unsubscribe handle strictly before forwarding to the wrapped listener
(resp. resolving the deferred value); consequently, even if nothing after
the unsubscribe runs (a throwing wrapped listener), the subscription is
already removed — the registry is empty and a later emission invokes
nothing and leaves the state unchanged. -/
theorem adapter_unsubscribes_before_forwarding (penv : Nat → Nat → Bool)
    (name : String) (aCode L pid d d' : Nat) :
    onceActs name 0 L = Act.unsubAct name 0 :: [Act.callAct L] ∧
    awaitedActs name 0 pid = Act.unsubAct name 0 :: [Act.resolveAct pid] ∧
    (emitFn penv 2 name d
        ((subscribeFn name ⟨aCode, [Act.unsubAct name 0], none⟩ init).2)).eventsStore
      = none ∧
    emitFn penv 2 name d'
        (emitFn penv 2 name d
          ((subscribeFn name ⟨aCode, [Act.unsubAct name 0], none⟩ init).2))
      = emitFn penv 2 name d
          ((subscribeFn name ⟨aCode, [Act.unsubAct name 0], none⟩ init).2) := by
  have htr : emitFn penv 2 name d
      ((subscribeFn name ⟨aCode, [Act.unsubAct name 0], none⟩ init).2)
      = ⟨none, [[]], [Ev.invoke 0 aCode name d]⟩ := by
    rw [subscribeFn_init]
    have hslot : mapGet [(name, (⟨1, 0⟩ : ListenersMapEntry))] name
        = some ⟨1, 0⟩ := by simp [mapGet]
    rw [emitFn_slot rfl hslot]
    simp [forEachLive, findNext, cursorLt, heapGet, visitEntry, invokeEntry,
      applyAct, unsubFn, mapGet, mapDelete, mapHasKey, pushEv]
  refine ⟨rfl, rfl, ?_, ?_⟩
  · rw [htr]
  · rw [htr]
    exact emitFn_none rfl

section ReentrantLemmas

theorem unsubFn_slot0 (name : String) (i N : Nat)
    (m : List (Nat × ListenersEntry)) (tr : List Ev)
    (hne : mapDelete m i ≠ []) :
    unsubFn name i ⟨some [(name, ⟨N, 0⟩)], [m], tr⟩
      = (mapHasKey m i, ⟨some [(name, ⟨N, 0⟩)], [mapDelete m i], tr⟩) := by
  simp [unsubFn, mapGet, heapGet, hne]

/-- Core of the live-append scenario: the first visited listener subscribes
a fresh pure listener for the same event; the appended entry (at index `N`,
beyond every existing key) is visited by the same iteration, after the
already-registered pure listeners. -/
theorem emit_actor_subscribe_core (penv : Nat → Nat → Bool) (name : String)
    (data a c2 N : Nat) (T : List (Nat × ListenersEntry))
    (hNpos : 0 < N)
    (hbounds : ∀ p ∈ T, 0 < p.1 ∧ p.1 < N)
    (hT : ∀ p ∈ T, p.2.acts = [] ∧ p.2.predicate = none)
    (hascT : AscKeys T) (fuel : Nat) (hfuel : T.length + 1 ≤ fuel) :
    forEachLive penv (Nat.succ fuel) 0 name data none
        ⟨some [(name, ⟨N, 0⟩)],
          [(0, ⟨a, [Act.subscribeAct name c2 none], none⟩) :: T], []⟩
      = ⟨some [(name, ⟨N + 1, 0⟩)],
          [((0, ⟨a, [Act.subscribeAct name c2 none], none⟩) :: T)
            ++ [(N, ⟨c2, [], none⟩)]],
          Ev.invoke 0 a name data
            :: (T.map (fun p => Ev.invoke p.1 p.2.listener name data)
                ++ [Ev.invoke N c2 name data])⟩ := by
  have hfind : findNext
      (heapGet (⟨some [(name, ⟨N, 0⟩)],
        [(0, (⟨a, [Act.subscribeAct name c2 none], none⟩ : ListenersEntry)) :: T],
        []⟩ : EmitterState).heap 0) none
      = some (0, ⟨a, [Act.subscribeAct name c2 none], none⟩) := by
    simp [heapGet, findNext, cursorLt]
  rw [forEachLive_step hfind]
  have hne : ∀ p ∈ (0, (⟨a, [Act.subscribeAct name c2 none], none⟩ : ListenersEntry)) :: T,
      p.1 ≠ N := by
    intro p hp
    rcases List.mem_cons.1 hp with rfl | hp
    · omega
    · exact Nat.ne_of_lt (hbounds p hp).2
  have hvisit : visitEntry penv name data 0
      (⟨a, [Act.subscribeAct name c2 none], none⟩ : ListenersEntry)
      ⟨some [(name, ⟨N, 0⟩)],
        [(0, (⟨a, [Act.subscribeAct name c2 none], none⟩ : ListenersEntry)) :: T], []⟩
      = ⟨some [(name, ⟨N + 1, 0⟩)],
          [((0, (⟨a, [Act.subscribeAct name c2 none], none⟩ : ListenersEntry)) :: T)
            ++ [(N, ⟨c2, [], none⟩)]],
          [Ev.invoke 0 a name data]⟩ := by
    simp only [visitEntry, invokeEntry, List.foldl_cons, List.foldl_nil, applyAct,
      pushEv, List.nil_append]
    rw [subscribeFn_slot0 name ⟨c2, [], none⟩ N _ _ hne]
  rw [hvisit]
  have hm2 : heapGet
      (⟨some [(name, ⟨N + 1, 0⟩)],
        [((0, (⟨a, [Act.subscribeAct name c2 none], none⟩ : ListenersEntry)) :: T)
          ++ [(N, ⟨c2, [], none⟩)]],
        [Ev.invoke 0 a name data]⟩ : EmitterState).heap 0
      = ((0, (⟨a, [Act.subscribeAct name c2 none], none⟩ : ListenersEntry)) :: T)
          ++ [(N, (⟨c2, [], none⟩ : ListenersEntry))] := by
    simp [heapGet]
  have hasc2 : AscKeys
      (((0, (⟨a, [Act.subscribeAct name c2 none], none⟩ : ListenersEntry)) :: T)
        ++ [(N, (⟨c2, [], none⟩ : ListenersEntry))]) := by
    rw [List.cons_append]
    refine List.pairwise_cons.2 ⟨?_, ?_⟩
    · intro p hp
      rcases List.mem_append.1 hp with hp | hp
      · exact (hbounds p hp).1
      · simp at hp
        simp [hp, hNpos]
    · refine List.pairwise_append.2 ⟨hascT, List.pairwise_singleton _ _, ?_⟩
      intro p hp q hq
      simp at hq
      have := (hbounds p hp).2
      simp [hq]
      omega
  have hrem2 : remainingOf
      (((0, (⟨a, [Act.subscribeAct name c2 none], none⟩ : ListenersEntry)) :: T)
        ++ [(N, (⟨c2, [], none⟩ : ListenersEntry))]) (some 0)
      = T ++ [(N, (⟨c2, [], none⟩ : ListenersEntry))] := by
    rw [List.cons_append]
    refine remainingOf_drop_head ?_
    intro p hp
    rcases List.mem_append.1 hp with hp | hp
    · exact (hbounds p hp).1
    · simp at hp
      simp [hp, hNpos]
  rw [forEachLive_pure hasc2 (T ++ [(N, ⟨c2, [], none⟩)]) (some 0) _ fuel hm2 hrem2
    (by
      intro p hp
      rcases List.mem_append.1 hp with hp | hp
      · exact hT p hp
      · simp at hp
        simp [hp])
    (by simp; omega)]
  simp

/-- Core of the removal-during-iteration scenario: pure listeners `P`, then
an actor that unsubscribes the not-yet-visited index `j`, then pure
listeners `X`, the victim at `j`, and pure listeners `Y`.  The emit visits
`P`, the actor, `X` and `Y` exactly once each, in order, and never visits
the victim. -/
theorem emit_unsub_actor_core (penv : Nat → Nat → Bool) (name : String)
    (data a kA j N : Nat) (P X Y : List (Nat × ListenersEntry)) (vE : ListenersEntry)
    (hP : ∀ p ∈ P, p.1 < kA)
    (hPp : ∀ p ∈ P, p.2.acts = [] ∧ p.2.predicate = none)
    (hX : ∀ p ∈ X, kA < p.1 ∧ p.1 < j)
    (hXp : ∀ p ∈ X, p.2.acts = [] ∧ p.2.predicate = none)
    (hY : ∀ p ∈ Y, j < p.1)
    (hYp : ∀ p ∈ Y, p.2.acts = [] ∧ p.2.predicate = none)
    (hkj : kA < j)
    (hascP : AscKeys P) (hascX : AscKeys X) (hascY : AscKeys Y)
    (fuelR : Nat) (hfuel : X.length + Y.length ≤ fuelR) :
    forEachLive penv (P.length + Nat.succ fuelR) 0 name data none
        ⟨some [(name, ⟨N, 0⟩)],
          [P ++ (kA, ⟨a, [Act.unsubAct name j], none⟩) :: (X ++ (j, vE) :: Y)], []⟩
      = ⟨some [(name, ⟨N, 0⟩)],
          [P ++ (kA, ⟨a, [Act.unsubAct name j], none⟩) :: (X ++ Y)],
          P.map (fun p => Ev.invoke p.1 p.2.listener name data)
            ++ Ev.invoke kA a name data
              :: (X.map (fun p => Ev.invoke p.1 p.2.listener name data)
                  ++ Y.map (fun p => Ev.invoke p.1 p.2.listener name data))⟩ := by
  have hconsY : AscKeys ((j, vE) :: Y) := List.pairwise_cons.2 ⟨fun q hq => hY q hq, hascY⟩
  have hXY : AscKeys (X ++ (j, vE) :: Y) := by
    refine List.pairwise_append.2 ⟨hascX, hconsY, ?_⟩
    intro p hp q hq
    rcases List.mem_cons.1 hq with rfl | hq
    · exact (hX p hp).2
    · have h1 := (hX p hp).2
      have h2 := hY q hq
      omega
  have hconsA : AscKeys
      ((kA, (⟨a, [Act.unsubAct name j], none⟩ : ListenersEntry)) :: (X ++ (j, vE) :: Y)) := by
    refine List.pairwise_cons.2 ⟨?_, hXY⟩
    intro q hq
    rcases List.mem_append.1 hq with hq | hq
    · exact (hX q hq).1
    · rcases List.mem_cons.1 hq with rfl | hq
      · exact hkj
      · have := hY q hq
        omega
  have hasc : AscKeys
      (P ++ (kA, (⟨a, [Act.unsubAct name j], none⟩ : ListenersEntry))
        :: (X ++ (j, vE) :: Y)) := by
    refine List.pairwise_append.2 ⟨hascP, hconsA, ?_⟩
    intro p hp q hq
    have hpk := hP p hp
    rcases List.mem_cons.1 hq with rfl | hq
    · exact hpk
    · rcases List.mem_append.1 hq with hq | hq
      · have := (hX q hq).1
        omega
      · rcases List.mem_cons.1 hq with rfl | hq
        · omega
        · have := hY q hq
          omega
  have hm0 : heapGet
      (⟨some [(name, ⟨N, 0⟩)],
        [P ++ (kA, (⟨a, [Act.unsubAct name j], none⟩ : ListenersEntry))
          :: (X ++ (j, vE) :: Y)], []⟩ : EmitterState).heap 0
      = P ++ (kA, (⟨a, [Act.unsubAct name j], none⟩ : ListenersEntry))
          :: (X ++ (j, vE) :: Y) := by
    simp [heapGet]
  have hrem0 : remainingOf
      (P ++ (kA, (⟨a, [Act.unsubAct name j], none⟩ : ListenersEntry))
        :: (X ++ (j, vE) :: Y)) none
      = P ++ (kA, (⟨a, [Act.unsubAct name j], none⟩ : ListenersEntry))
          :: (X ++ (j, vE) :: Y) := remainingOf_none _
  rw [forEachLive_seg hasc P
    ((kA, (⟨a, [Act.unsubAct name j], none⟩ : ListenersEntry)) :: (X ++ (j, vE) :: Y))
    none _ (Nat.succ fuelR) hm0 hrem0 hPp]
  simp only [List.nil_append]
  have hrem1 : remainingOf
      (P ++ (kA, (⟨a, [Act.unsubAct name j], none⟩ : ListenersEntry))
        :: (X ++ (j, vE) :: Y)) (cursorAfter none P)
      = (kA, (⟨a, [Act.unsubAct name j], none⟩ : ListenersEntry))
          :: (X ++ (j, vE) :: Y) :=
    remainingOf_after hasc P _ none hrem0
  have hfind1 : findNext
      (heapGet (⟨some [(name, ⟨N, 0⟩)],
        [P ++ (kA, (⟨a, [Act.unsubAct name j], none⟩ : ListenersEntry))
          :: (X ++ (j, vE) :: Y)],
        P.map (fun p => Ev.invoke p.1 p.2.listener name data)⟩ : EmitterState).heap 0)
      (cursorAfter none P)
      = some (kA, ⟨a, [Act.unsubAct name j], none⟩) := by
    rw [show heapGet (⟨some [(name, ⟨N, 0⟩)],
        [P ++ (kA, (⟨a, [Act.unsubAct name j], none⟩ : ListenersEntry))
          :: (X ++ (j, vE) :: Y)],
        P.map (fun p => Ev.invoke p.1 p.2.listener name data)⟩ : EmitterState).heap 0
      = P ++ (kA, (⟨a, [Act.unsubAct name j], none⟩ : ListenersEntry))
          :: (X ++ (j, vE) :: Y) from by simp [heapGet],
      findNext_eq_head, hrem1]
    rfl
  rw [forEachLive_step hfind1]
  have hdel : mapDelete
      (P ++ (kA, (⟨a, [Act.unsubAct name j], none⟩ : ListenersEntry))
        :: (X ++ (j, vE) :: Y)) j
      = P ++ (kA, (⟨a, [Act.unsubAct name j], none⟩ : ListenersEntry)) :: (X ++ Y) := by
    rw [mapDelete_append,
      mapDelete_eq_self (fun p hp => by have h1 := hP p hp; omega)]
    congr 1
    show mapDelete ((kA, _) :: _) j = _
    simp only [mapDelete]
    rw [if_neg (show ¬ (kA = j) from by omega), mapDelete_append,
      mapDelete_eq_self (fun p hp => by have := (hX p hp).2; omega)]
    congr 1
    have hY' : mapDelete Y j = Y := by
      refine mapDelete_eq_self ?_
      intro p hp
      have := hY p hp
      omega
    simp [mapDelete, hY']
  have hvisit : visitEntry penv name data kA
      (⟨a, [Act.unsubAct name j], none⟩ : ListenersEntry)
      ⟨some [(name, ⟨N, 0⟩)],
        [P ++ (kA, (⟨a, [Act.unsubAct name j], none⟩ : ListenersEntry))
          :: (X ++ (j, vE) :: Y)],
        P.map (fun p => Ev.invoke p.1 p.2.listener name data)⟩
      = ⟨some [(name, ⟨N, 0⟩)],
          [P ++ (kA, (⟨a, [Act.unsubAct name j], none⟩ : ListenersEntry)) :: (X ++ Y)],
          P.map (fun p => Ev.invoke p.1 p.2.listener name data)
            ++ [Ev.invoke kA a name data]⟩ := by
    simp only [visitEntry, invokeEntry, List.foldl_cons, List.foldl_nil, applyAct, pushEv]
    rw [unsubFn_slot0 name j N _ _ (by rw [hdel]; simp)]
    rw [hdel]
  rw [hvisit]
  have hasc2 : AscKeys
      (P ++ (kA, (⟨a, [Act.unsubAct name j], none⟩ : ListenersEntry)) :: (X ++ Y)) := by
    have hsub := mapDelete_sublist
      (P ++ (kA, (⟨a, [Act.unsubAct name j], none⟩ : ListenersEntry))
        :: (X ++ (j, vE) :: Y)) j
    rw [hdel] at hsub
    exact List.Pairwise.sublist hsub hasc
  have hm2 : heapGet
      (⟨some [(name, ⟨N, 0⟩)],
        [P ++ (kA, (⟨a, [Act.unsubAct name j], none⟩ : ListenersEntry)) :: (X ++ Y)],
        P.map (fun p => Ev.invoke p.1 p.2.listener name data)
          ++ [Ev.invoke kA a name data]⟩ : EmitterState).heap 0
      = P ++ (kA, (⟨a, [Act.unsubAct name j], none⟩ : ListenersEntry)) :: (X ++ Y) := by
    simp [heapGet]
  have hrem3 : remainingOf
      (P ++ (kA, (⟨a, [Act.unsubAct name j], none⟩ : ListenersEntry)) :: (X ++ Y))
      (some kA) = X ++ Y := by
    simp only [remainingOf, List.filter_append, List.filter_cons]
    rw [if_neg (by simp [cursorLt])]
    rw [show List.filter (fun p => cursorLt (some kA) p.1) P = [] from
      filter_cursor_nil (fun p hp => Nat.le_of_lt (hP p hp))]
    rw [show List.filter (fun p => cursorLt (some kA) p.1) X = X from
      filter_cursor_all (fun p hp => (hX p hp).1)]
    rw [show List.filter (fun p => cursorLt (some kA) p.1) Y = Y from
      filter_cursor_all (fun p hp => by have := hY p hp; omega)]
    simp
  rw [forEachLive_pure hasc2 (X ++ Y) (some kA) _ fuelR hm2 hrem3
    (by
      intro p hp
      rcases List.mem_append.1 hp with hp | hp
      · exact hXp p hp
      · exact hYp p hp)
    (by simp; omega)]
  simp

end ReentrantLemmas

theorem mapGet_singleton {κ α : Type} [DecidableEq κ] (k : κ) (v : α) :
    mapGet [(k, v)] k = some v := by
  simp [mapGet]

section ComputeLemmas

theorem heapGet_ge {h : List (List (Nat × ListenersEntry))} {i : Nat}
    (hi : h.length ≤ i) : heapGet h i = [] := by
  unfold heapGet
  rw [List.getD_eq_getElem?_getD, List.getElem?_eq_none hi]
  rfl

theorem subscribeFn_eq_fresh {name : String} {e : ListenersEntry} {st : EmitterState}
    (h : mapGet (st.eventsStore.getD []) name = none) :
    subscribeFn name e st
      = (0, { st with
                eventsStore :=
                  some (mapSet (st.eventsStore.getD []) name ⟨1, st.heap.length⟩)
                heap := st.heap ++ [[(0, e)]] }) := by
  simp [subscribeFn, h]

theorem subscribeFn_eq_slot {name : String} {e : ListenersEntry} {st : EmitterState}
    {slot : ListenersMapEntry}
    (h : mapGet (st.eventsStore.getD []) name = some slot) :
    subscribeFn name e st
      = (slot.currentIndex,
          { st with
              eventsStore :=
                some (mapSet (st.eventsStore.getD []) name
                  ⟨slot.currentIndex + 1, slot.listenersId⟩)
              heap := st.heap.set slot.listenersId
                (mapSet (heapGet st.heap slot.listenersId) slot.currentIndex e) }) := by
  simp [subscribeFn, h]

theorem unsubFn_eq_none {name : String} {i : Nat} {st : EmitterState}
    (h : st.eventsStore = none) : unsubFn name i st = (false, st) := by
  simp [unsubFn, h]

theorem unsubFn_eq_noslot {name : String} {i : Nat} {st : EmitterState} {store}
    (h : st.eventsStore = some store) (h2 : mapGet store name = none) :
    unsubFn name i st = (false, st) := by
  simp [unsubFn, h, h2]

theorem unsubFn_eq_slot {name : String} {i : Nat} {st : EmitterState} {store}
    {slot : ListenersMapEntry}
    (h : st.eventsStore = some store) (h2 : mapGet store name = some slot) :
    unsubFn name i st
      = (mapHasKey (heapGet st.heap slot.listenersId) i,
          { st with
              eventsStore :=
                if (if mapDelete (heapGet st.heap slot.listenersId) i = []
                      then mapDelete store name else store) = []
                  then none
                  else some (if mapDelete (heapGet st.heap slot.listenersId) i = []
                    then mapDelete store name else store)
              heap := st.heap.set slot.listenersId
                (mapDelete (heapGet st.heap slot.listenersId) i) }) := by
  simp [unsubFn, h, h2]

theorem unsubscribeAllFn_eq_none {st : EmitterState} (h : st.eventsStore = none)
    (n : Option String) : unsubscribeAllFn n st = st := by
  simp [unsubscribeAllFn, h]

theorem unsubscribeAllFn_eq_all {st : EmitterState} {store}
    (h : st.eventsStore = some store) :
    unsubscribeAllFn none st = { st with eventsStore := none } := by
  simp [unsubscribeAllFn, h]

theorem unsubscribeAllFn_eq_name {st : EmitterState} {store} {n : String}
    (h : st.eventsStore = some store) :
    unsubscribeAllFn (some n) st
      = { st with
            eventsStore :=
              if mapDelete store n = [] then none else some (mapDelete store n) } := by
  simp [unsubscribeAllFn, h]

end ComputeLemmas

section InvariantDefs

/-- A slot committed to the registry references a map inside the heap that
holds at least one listener entry. -/
def SlotOK (heap : List (List (Nat × ListenersEntry))) (slot : ListenersMapEntry) : Prop :=
  slot.listenersId < heap.length ∧ heapGet heap slot.listenersId ≠ []

/-- The structural registry invariant of every reachable state: when the
shared registry reference is present, it maps at least one event name, every
slot in it holds a nonempty listener map, and distinct slots own distinct
map objects. -/
def Inv (st : EmitterState) : Prop :=
  ∀ store, st.eventsStore = some store →
    store ≠ [] ∧ (∀ p ∈ store, SlotOK st.heap p.2) ∧
    store.Pairwise (fun p q => p.2.listenersId ≠ q.2.listenersId)

/-- Total number of listener entries registered anywhere in the registry. -/
def listenerTotal (st : EmitterState) : Nat :=
  match st.eventsStore with
  | none => 0
  | some store => (store.map (fun p => (heapGet st.heap p.2.listenersId).length)).sum

/-- Every listener registered anywhere is a pure recorder (no side
effects); predicates may still be present. -/
def PureState (st : EmitterState) : Prop :=
  ∀ m ∈ st.heap, ∀ p ∈ m, p.2.acts = []

theorem Inv_init : Inv init := by
  intro store h
  cases h

end InvariantDefs

section InvPreservation

theorem mapHasKey_of_mem {κ α : Type} [DecidableEq κ] {m : List (κ × α)}
    {k : κ} {v : α} (h : (k, v) ∈ m) : mapHasKey m k = true := by
  by_cases hk : mapHasKey m k = true
  · exact hk
  · exact absurd rfl ((mapHasKey_eq_false.1 (Bool.not_eq_true _ ▸ hk)) _ h)

theorem findNext_mem {m : List (Nat × ListenersEntry)} {c : Option Nat}
    {k : Nat} {e : ListenersEntry} (h : findNext m c = some (k, e)) : (k, e) ∈ m := by
  rw [findNext_eq_head] at h
  have := List.mem_of_mem_head? h
  exact (List.mem_filter.1 this).1

theorem pairwise_mapSet_same {store : List (String × ListenersMapEntry)} {name : String}
    {slot slot' : ListenersMapEntry}
    (hpw : store.Pairwise (fun p q => p.2.listenersId ≠ q.2.listenersId))
    (hget : mapGet store name = some slot)
    (hid : slot'.listenersId = slot.listenersId) :
    (mapSet store name slot').Pairwise
      (fun p q => p.2.listenersId ≠ q.2.listenersId) := by
  induction store with
  | nil => simp [mapGet] at hget
  | cons q rest ih =>
      obtain ⟨k0, v0⟩ := q
      obtain ⟨h0, hrest⟩ := List.pairwise_cons.1 hpw
      by_cases hk : k0 = name
      · subst hk
        have hv0 : v0 = slot := by simpa [mapGet] using hget
        subst hv0
        simp only [mapSet, if_pos rfl]
        refine List.pairwise_cons.2 ⟨?_, hrest⟩
        intro q hq
        have := h0 q hq
        simpa [hid] using this
      · simp only [mapSet, if_neg hk]
        have hget' : mapGet rest name = some slot := by simpa [mapGet, hk] using hget
        refine List.pairwise_cons.2 ⟨?_, ih hrest hget'⟩
        intro q hq
        rcases mem_mapSet hq with rfl | hq
        · have hm := mapGet_some_mem hget'
          have := h0 _ hm
          simpa [hid] using this
        · exact h0 q hq

theorem subscribeFn_inv {name : String} {e : ListenersEntry} {st : EmitterState}
    (h : Inv st) : Inv (subscribeFn name e st).2 := by
  cases hg : mapGet (st.eventsStore.getD []) name with
  | none =>
      rw [subscribeFn_eq_fresh hg]
      intro store' hstore'
      injection hstore' with hstore'
      subst hstore'
      dsimp only
      cases hes : st.eventsStore with
      | none =>
          simp only [Option.getD_none]
          refine ⟨by simp [mapSet], ?_, ?_⟩
          · intro p hp
            simp [mapSet] at hp
            subst hp
            constructor
            · simp
            · rw [heapGet_append_len]
              simp
          · simp [mapSet]
      | some s =>
          rw [hes] at hg
          simp only [Option.getD_some] at hg ⊢
          obtain ⟨hne, hslots, hpw⟩ := h s hes
          have hfresh : ∀ p ∈ s, p.1 ≠ name := mapGet_eq_none.1 hg
          rw [mapSet_eq_append hfresh]
          refine ⟨by simp, ?_, ?_⟩
          · intro p hp
            rcases List.mem_append.1 hp with hp | hp
            · obtain ⟨h1, h2⟩ := hslots p hp
              exact ⟨by simp; omega, by rwa [heapGet_append_lt h1]⟩
            · simp at hp
              subst hp
              refine ⟨by simp, ?_⟩
              rw [heapGet_append_len]
              simp
          · refine List.pairwise_append.2 ⟨hpw, List.pairwise_singleton _ _, ?_⟩
            intro p hp q hq
            simp at hq
            subst hq
            have := (hslots p hp).1
            simp
            omega
  | some slot =>
      rw [subscribeFn_eq_slot hg]
      intro store' hstore'
      injection hstore' with hstore'
      subst hstore'
      dsimp only
      cases hes : st.eventsStore with
      | none => rw [hes] at hg; simp [mapGet] at hg
      | some s =>
          rw [hes] at hg
          simp only [Option.getD_some] at hg ⊢
          obtain ⟨hne, hslots, hpw⟩ := h s hes
          have hmem := mapGet_some_mem hg
          obtain ⟨hid, hmap⟩ := hslots _ hmem
          refine ⟨mapSet_ne_nil, ?_, ?_⟩
          · intro p hp
            rcases mem_mapSet hp with rfl | hp
            · refine ⟨by simpa using hid, ?_⟩
              dsimp only
              rw [heapGet_set_self hid]
              exact mapSet_ne_nil
            · obtain ⟨h1, h2⟩ := hslots p hp
              refine ⟨by simpa using h1, ?_⟩
              by_cases hpq : p.2.listenersId = slot.listenersId
              · rw [hpq, heapGet_set_self hid]
                exact mapSet_ne_nil
              · rwa [heapGet_set_ne (fun hq => hpq hq.symm)]
          · exact pairwise_mapSet_same hpw hg rfl

theorem unsubFn_inv {name : String} {i : Nat} {st : EmitterState}
    (h : Inv st) : Inv (unsubFn name i st).2 := by
  cases hes : st.eventsStore with
  | none => rw [unsubFn_eq_none hes]; exact h
  | some store =>
      cases hg : mapGet store name with
      | none => rw [unsubFn_eq_noslot hes hg]; exact h
      | some slot =>
          rw [unsubFn_eq_slot hes hg]
          obtain ⟨hne, hslots, hpw⟩ := h store hes
          have hmem := mapGet_some_mem hg
          obtain ⟨hid, hmap⟩ := hslots _ hmem
          intro store' hstore'
          simp only at hstore'
          by_cases hdel : mapDelete (heapGet st.heap slot.listenersId) i = []
          · rw [if_pos hdel] at hstore'
            by_cases hsd : mapDelete store name = []
            · rw [if_pos hsd] at hstore'
              cases hstore'
            · rw [if_neg hsd] at hstore'
              injection hstore' with hstore'
              subst hstore'
              refine ⟨hsd, ?_, List.Pairwise.sublist (mapDelete_sublist _ _) hpw⟩
              intro p hp
              obtain ⟨hpmem, hpne⟩ := mem_mapDelete.1 hp
              obtain ⟨h1, h2⟩ := hslots p hpmem
              refine ⟨by simpa using h1, ?_⟩
              have hdiff : p.2.listenersId ≠ slot.listenersId := by
                have hsym : Symmetric
                    (fun (p q : String × ListenersMapEntry) =>
                      p.2.listenersId ≠ q.2.listenersId) :=
                  fun a b hab => Ne.symm hab
                have hne' : p ≠ (name, slot) := by
                  intro hcontra
                  rw [hcontra] at hpne
                  exact hpne rfl
                exact hpw.forall hsym hpmem hmem hne'
              rwa [heapGet_set_ne (fun hq => hdiff hq.symm)]
          · rw [if_neg hdel] at hstore'
            rw [if_neg hne] at hstore'
            injection hstore' with hstore'
            subst hstore'
            refine ⟨hne, ?_, hpw⟩
            intro p hp
            obtain ⟨h1, h2⟩ := hslots p hp
            refine ⟨by simpa using h1, ?_⟩
            by_cases hpq : p.2.listenersId = slot.listenersId
            · rw [hpq, heapGet_set_self hid]
              exact hdel
            · rwa [heapGet_set_ne (fun hq => hpq hq.symm)]

theorem unsubscribeAllFn_inv {n : Option String} {st : EmitterState}
    (h : Inv st) : Inv (unsubscribeAllFn n st) := by
  cases hes : st.eventsStore with
  | none => rw [unsubscribeAllFn_eq_none hes]; exact h
  | some store =>
      obtain ⟨hne, hslots, hpw⟩ := h store hes
      cases n with
      | none =>
          rw [unsubscribeAllFn_eq_all hes]
          intro store' hstore'
          cases hstore'
      | some nm =>
          rw [unsubscribeAllFn_eq_name hes]
          intro store' hstore'
          simp only at hstore'
          by_cases hsd : mapDelete store nm = []
          · rw [if_pos hsd] at hstore'
            cases hstore'
          · rw [if_neg hsd] at hstore'
            injection hstore' with hstore'
            subst hstore'
            refine ⟨hsd, ?_, List.Pairwise.sublist (mapDelete_sublist _ _) hpw⟩
            intro p hp
            exact hslots p (mem_mapDelete.1 hp).1

theorem pushEv_inv {ev : Ev} {st : EmitterState} (h : Inv st) : Inv (pushEv ev st) :=
  fun store hs => h store hs

theorem applyAct_inv {name : String} {data : Nat} {st : EmitterState} {act : Act}
    (h : Inv st) : Inv (applyAct name data st act) := by
  cases act with
  | subscribeAct n c p => exact subscribeFn_inv h
  | unsubAct n i => exact unsubFn_inv h
  | unsubscribeAllAct n => exact unsubscribeAllFn_inv h
  | callAct c => exact pushEv_inv h
  | resolveAct p => exact pushEv_inv h

theorem foldl_applyAct_inv {name : String} {data : Nat} :
    ∀ (acts : List Act) (st : EmitterState), Inv st →
      Inv (acts.foldl (applyAct name data) st) := by
  intro acts
  induction acts with
  | nil => intro st h; exact h
  | cons a rest ih =>
      intro st h
      exact ih _ (applyAct_inv h)

theorem invokeEntry_inv {name : String} {data k : Nat} {e : ListenersEntry}
    {st : EmitterState} (h : Inv st) : Inv (invokeEntry name data k e st) :=
  foldl_applyAct_inv _ _ (pushEv_inv h)

theorem visitEntry_inv {penv : Nat → Nat → Bool} {name : String} {data k : Nat}
    {e : ListenersEntry} {st : EmitterState} (h : Inv st) :
    Inv (visitEntry penv name data k e st) := by
  cases hp : e.predicate with
  | none =>
      rw [visitEntry, hp]
      exact invokeEntry_inv h
  | some p =>
      by_cases hr : penv p data = true
      · have heq : visitEntry penv name data k e st
            = invokeEntry name data k e (pushEv (Ev.predCall p data (penv p data)) st) := by
          simp [visitEntry, hp, hr]
        rw [heq]
        exact invokeEntry_inv (pushEv_inv h)
      · have heq : visitEntry penv name data k e st
            = pushEv (Ev.predCall p data (penv p data)) st := by
          simp [visitEntry, hp, hr]
        rw [heq]
        exact pushEv_inv h

theorem forEachLive_inv {penv : Nat → Nat → Bool} {mid : Nat} {name : String}
    {data : Nat} :
    ∀ (fuel : Nat) (cursor : Option Nat) (st : EmitterState), Inv st →
      Inv (forEachLive penv fuel mid name data cursor st) := by
  intro fuel
  induction fuel with
  | zero => intro cursor st h; exact h
  | succ f ih =>
      intro cursor st h
      rw [forEachLive]
      cases hf : findNext (heapGet st.heap mid) cursor with
      | none => exact h
      | some q =>
          obtain ⟨k, e⟩ := q
          exact ih _ _ (visitEntry_inv h)

theorem emitFn_inv {penv : Nat → Nat → Bool} {fuel : Nat} {name : String}
    {data : Nat} {st : EmitterState} (h : Inv st) :
    Inv (emitFn penv fuel name data st) := by
  cases hes : st.eventsStore with
  | none => rw [emitFn_none hes]; exact h
  | some store =>
      cases hg : mapGet store name with
      | none => rw [emitFn_noSlot hes hg]; exact h
      | some slot =>
          rw [emitFn_slot hes hg]
          exact forEachLive_inv _ _ _ h

theorem runOp_inv {penv : Nat → Nat → Bool} {fuel : Nat} {st : EmitterState}
    {op : Op} (h : Inv st) : Inv (runOp penv fuel st op) := by
  cases op with
  | subscribeOp n e => exact subscribeFn_inv h
  | unsubOp n i => exact unsubFn_inv h
  | unsubscribeAllOp n => exact unsubscribeAllFn_inv h
  | emitOp n d => exact emitFn_inv h

theorem runOps_inv {penv : Nat → Nat → Bool} {fuel : Nat} :
    ∀ (ops : List Op) (st : EmitterState), Inv st → Inv (runOps penv fuel ops st) := by
  intro ops
  induction ops with
  | nil => intro st h; exact h
  | cons op rest ih =>
      intro st h
      exact ih _ (runOp_inv h)

end InvPreservation

section ObservationDefs

/-- Whether the unsubscribe handle `(name, index)` currently has a matching
listener entry in the registry (what its `delete` call would find). -/
def entryLive (st : EmitterState) (name : String) (index : Nat) : Bool :=
  match st.eventsStore with
  | none => false
  | some store =>
      match mapGet store name with
      | none => false
      | some slot => mapHasKey (heapGet st.heap slot.listenersId) index

/-- The listener entries (with their registration indices) currently
registered under an event name. -/
def eventListeners (st : EmitterState) (name : String) :
    List (Nat × ListenersEntry) :=
  match st.eventsStore with
  | none => []
  | some store =>
      match mapGet store name with
      | none => []
      | some slot => heapGet st.heap slot.listenersId

theorem eventListeners_congr {st st' : EmitterState} {name : String}
    (h1 : st'.eventsStore = st.eventsStore) (h2 : st'.heap = st.heap) :
    eventListeners st' name = eventListeners st name := by
  unfold eventListeners
  rw [h1, h2]

end ObservationDefs

section PureFrame

/-- The trace events one visit of a side-effect-free listener entry
produces. -/
def visitEvs (penv : Nat → Nat → Bool) (name : String) (data k : Nat)
    (e : ListenersEntry) : List Ev :=
  match e.predicate with
  | none => [Ev.invoke k e.listener name data]
  | some p =>
      Ev.predCall p data (penv p data)
        :: (if penv p data then [Ev.invoke k e.listener name data] else [])

theorem visitEntry_pureActs {penv : Nat → Nat → Bool} {name : String}
    {data k : Nat} {e : ListenersEntry} {st : EmitterState} (ha : e.acts = []) :
    visitEntry penv name data k e st
      = { st with trace := st.trace ++ visitEvs penv name data k e } := by
  cases hp : e.predicate with
  | none => simp [visitEntry, hp, invokeEntry, ha, visitEvs, pushEv]
  | some p =>
      cases hr : penv p data <;>
        simp [visitEntry, hp, hr, invokeEntry, ha, visitEvs, pushEv]

theorem visitEvs_mem {penv : Nat → Nat → Bool} {name : String} {data k : Nat}
    {e : ListenersEntry} {ev : Ev} (h : ev ∈ visitEvs penv name data k e) :
    (∃ q r b, ev = Ev.predCall q r b) ∨ ev = Ev.invoke k e.listener name data := by
  cases hp : e.predicate with
  | none =>
      simp [visitEvs, hp] at h
      exact Or.inr h
  | some p =>
      cases hr : penv p data with
      | false =>
          simp [visitEvs, hp, hr] at h
          exact Or.inl ⟨p, data, false, h⟩
      | true =>
          simp [visitEvs, hp, hr] at h
          rcases h with h | h
          · exact Or.inl ⟨p, data, true, h⟩
          · exact Or.inr h

theorem pushEv_pure {ev : Ev} {st : EmitterState} (h : PureState st) :
    PureState (pushEv ev st) :=
  fun m hm => h m hm

theorem subscribeFn_pure {name : String} {e : ListenersEntry} {st : EmitterState}
    (hp : PureState st) (he : e.acts = []) : PureState (subscribeFn name e st).2 := by
  cases hg : mapGet (st.eventsStore.getD []) name with
  | none =>
      rw [subscribeFn_eq_fresh hg]
      intro m hm p hpm
      dsimp only at hm
      rcases List.mem_append.1 hm with hm | hm
      · exact hp m hm p hpm
      · simp at hm
        subst hm
        simp at hpm
        subst hpm
        exact he
  | some slot =>
      rw [subscribeFn_eq_slot hg]
      intro m hm p hpm
      dsimp only at hm
      rcases List.mem_or_eq_of_mem_set hm with hm | hm
      · exact hp m hm p hpm
      · subst hm
        rcases mem_mapSet hpm with rfl | hpm
        · exact he
        · by_cases hlt : slot.listenersId < st.heap.length
          · exact hp _ (heapGet_mem hlt) p hpm
          · rw [heapGet_ge (Nat.le_of_not_lt hlt)] at hpm
            simp at hpm

theorem unsubFn_pure {name : String} {i : Nat} {st : EmitterState}
    (hp : PureState st) : PureState (unsubFn name i st).2 := by
  cases hes : st.eventsStore with
  | none => rw [unsubFn_eq_none hes]; exact hp
  | some store =>
      cases hg : mapGet store name with
      | none => rw [unsubFn_eq_noslot hes hg]; exact hp
      | some slot =>
          rw [unsubFn_eq_slot hes hg]
          intro m hm p hpm
          dsimp only at hm
          rcases List.mem_or_eq_of_mem_set hm with hm | hm
          · exact hp m hm p hpm
          · subst hm
            have hmm := (mem_mapDelete.1 hpm).1
            by_cases hlt : slot.listenersId < st.heap.length
            · exact hp _ (heapGet_mem hlt) p hmm
            · rw [heapGet_ge (Nat.le_of_not_lt hlt)] at hmm
              simp at hmm

theorem unsubscribeAllFn_pure {n : Option String} {st : EmitterState}
    (hp : PureState st) : PureState (unsubscribeAllFn n st) := by
  cases hes : st.eventsStore with
  | none => rw [unsubscribeAllFn_eq_none hes]; exact hp
  | some store =>
      cases n with
      | none =>
          rw [unsubscribeAllFn_eq_all hes]
          exact fun m hm => hp m hm
      | some nm =>
          rw [unsubscribeAllFn_eq_name hes]
          exact fun m hm => hp m hm

theorem forEachLive_pureFrame (penv : Nat → Nat → Bool) (mid : Nat) (name : String)
    (data : Nat) :
    ∀ (fuel : Nat) (cursor : Option Nat) (st : EmitterState), PureState st →
      (forEachLive penv fuel mid name data cursor st).eventsStore = st.eventsStore ∧
      (forEachLive penv fuel mid name data cursor st).heap = st.heap ∧
      ∃ delta, (forEachLive penv fuel mid name data cursor st).trace
          = st.trace ++ delta ∧
        ∀ ev ∈ delta, (∃ q r b, ev = Ev.predCall q r b) ∨
          ∃ k c, ev = Ev.invoke k c name data
            ∧ mapHasKey (heapGet st.heap mid) k = true := by
  intro fuel
  induction fuel with
  | zero =>
      intro cursor st _
      exact ⟨rfl, rfl, [], by simp [forEachLive], by simp⟩
  | succ f ih =>
      intro cursor st hp
      cases hf : findNext (heapGet st.heap mid) cursor with
      | none =>
          have hred : forEachLive penv (Nat.succ f) mid name data cursor st = st := by
            rw [forEachLive, hf]
          rw [hred]
          exact ⟨rfl, rfl, [], by simp, by simp⟩
      | some q =>
          obtain ⟨k, e⟩ := q
          rw [forEachLive_step hf]
          have hmem := findNext_mem hf
          have hmlt : mid < st.heap.length := by
            by_contra hge
            rw [heapGet_ge (Nat.le_of_not_lt hge)] at hmem
            simp at hmem
          have hacts : e.acts = [] := hp _ (heapGet_mem hmlt) (k, e) hmem
          rw [visitEntry_pureActs hacts]
          obtain ⟨h1, h2, delta, h3, h4⟩ :=
            ih (some k) { st with trace := st.trace ++ visitEvs penv name data k e }
              (fun m hm => hp m hm)
          refine ⟨h1, h2, visitEvs penv name data k e ++ delta, ?_, ?_⟩
          · rw [h3]
            simp
          · intro ev hev
            rcases List.mem_append.1 hev with hev | hev
            · rcases visitEvs_mem hev with h | h
              · exact Or.inl h
              · exact Or.inr ⟨k, e.listener, h, mapHasKey_of_mem hmem⟩
            · exact h4 ev hev

theorem emitFn_pureFrame {penv : Nat → Nat → Bool} {fuel : Nat} {name : String}
    {data : Nat} {st : EmitterState} (hp : PureState st) :
    (emitFn penv fuel name data st).eventsStore = st.eventsStore ∧
    (emitFn penv fuel name data st).heap = st.heap ∧
    ∃ delta, (emitFn penv fuel name data st).trace = st.trace ++ delta ∧
      ∀ ev ∈ delta, (∃ q r b, ev = Ev.predCall q r b) ∨
        ∃ k c, ev = Ev.invoke k c name data ∧ entryLive st name k = true := by
  cases hes : st.eventsStore with
  | none =>
      rw [emitFn_none hes]
      exact ⟨hes, rfl, [], by simp, by simp⟩
  | some store =>
      cases hg : mapGet store name with
      | none =>
          rw [emitFn_noSlot hes hg]
          exact ⟨hes, rfl, [], by simp, by simp⟩
      | some slot =>
          rw [emitFn_slot hes hg]
          obtain ⟨h1, h2, delta, h3, h4⟩ :=
            forEachLive_pureFrame penv slot.listenersId name data fuel none st hp
          refine ⟨h1.trans hes, h2, delta, h3, ?_⟩
          intro ev hev
          rcases h4 ev hev with h | ⟨k, c, hev', hkey⟩
          · exact Or.inl h
          · refine Or.inr ⟨k, c, hev', ?_⟩
            simp [entryLive, hes, hg, hkey]

theorem emitFn_pure {penv : Nat → Nat → Bool} {fuel : Nat} {name : String}
    {data : Nat} {st : EmitterState} (hp : PureState st) :
    PureState (emitFn penv fuel name data st) := by
  have h2 := (@emitFn_pureFrame penv fuel name data st hp).2.1
  intro m hm
  rw [h2] at hm
  exact hp m hm

end PureFrame

/-- C5: during an in-progress `emit`, an already-visited listener (the
actor) synchronously unsubscribes a listener of the same event that has not
yet been visited (the victim at index `cs1.length + 1 + xs.length`); the
removed listener is never invoked by that same `emit`, and every other
listener is invoked exactly once, in order — none skipped, none doubled. -/
theorem emit_skips_listener_removed_during_iteration (penv : Nat → Nat → Bool)
    (name : String) (data a v : Nat) (cs1 xs ys : List Nat) :
    (emitFn penv (cs1.length + (xs.length + ys.length + 1)) name data
        (subscribeList name
          (cs1.map pureEntry
            ++ ⟨a, [Act.unsubAct name (cs1.length + 1 + xs.length)], none⟩
              :: (xs.map pureEntry ++ pureEntry v :: ys.map pureEntry)) init)).trace
      = invokesFrom name data cs1 0
          ++ Ev.invoke cs1.length a name data
            :: (invokesFrom name data xs (cs1.length + 1)
                ++ invokesFrom name data ys (cs1.length + 1 + xs.length + 1)) := by
  rw [subscribeList_init_ne name (by simp)]
  rw [emitFn_slot rfl (mapGet_singleton name _)]
  have hsplit : indexedFrom
      (cs1.map pureEntry
        ++ (⟨a, [Act.unsubAct name (cs1.length + 1 + xs.length)], none⟩ : ListenersEntry)
          :: (xs.map pureEntry ++ pureEntry v :: ys.map pureEntry)) 0
      = indexedFrom (cs1.map pureEntry) 0
          ++ (cs1.length,
              (⟨a, [Act.unsubAct name (cs1.length + 1 + xs.length)], none⟩ : ListenersEntry))
            :: (indexedFrom (xs.map pureEntry) (cs1.length + 1)
                ++ (cs1.length + 1 + xs.length, pureEntry v)
                  :: indexedFrom (ys.map pureEntry) (cs1.length + 1 + xs.length + 1)) := by
    rw [indexedFrom_append]
    simp only [List.length_map, Nat.zero_add, indexedFrom]
    rw [indexedFrom_append]
    simp only [List.length_map, indexedFrom]
  rw [hsplit]
  rw [show cs1.length + (xs.length + ys.length + 1)
      = (indexedFrom (List.map pureEntry cs1) 0).length + Nat.succ (xs.length + ys.length)
    from by simp [indexedFrom_length]]
  rw [emit_unsub_actor_core penv name data a cs1.length (cs1.length + 1 + xs.length)
    (cs1.map pureEntry
      ++ (⟨a, [Act.unsubAct name (cs1.length + 1 + xs.length)], none⟩ : ListenersEntry)
        :: (xs.map pureEntry ++ pureEntry v :: ys.map pureEntry)).length
    (indexedFrom (cs1.map pureEntry) 0)
    (indexedFrom (xs.map pureEntry) (cs1.length + 1))
    (indexedFrom (ys.map pureEntry) (cs1.length + 1 + xs.length + 1))
    (pureEntry v)
    (by
      intro p hp
      have := indexedFrom_key_bounds hp
      simp only [List.length_map] at this
      omega)
    (fun p hp => indexedFrom_pure cs1 0 p hp)
    (by
      intro p hp
      have := indexedFrom_key_bounds hp
      simp only [List.length_map] at this
      omega)
    (fun p hp => indexedFrom_pure xs (cs1.length + 1) p hp)
    (by
      intro p hp
      have := indexedFrom_key_bounds hp
      simp only [List.length_map] at this
      omega)
    (fun p hp => indexedFrom_pure ys (cs1.length + 1 + xs.length + 1) p hp)
    (by omega)
    (indexedFrom_asc _ _) (indexedFrom_asc _ _) (indexedFrom_asc _ _)
    (xs.length + ys.length)
    (by simp [indexedFrom_length])]
  simp [indexedFrom_map_invoke]

/-- C9: a listener that, while being invoked by an in-progress `emit`,
subscribes a new listener for the same event name causes the new listener
to be invoked by that same `emit` call: the iteration runs over the live
listener map, not a snapshot, and the appended entry lies beyond the
cursor. -/
theorem emit_visits_listener_added_during_iteration (penv : Nat → Nat → Bool)
    (name : String) (data a c2 : Nat) (cs : List Nat) :
    (emitFn penv (cs.length + 3) name data
        (subscribeList name
          (⟨a, [Act.subscribeAct name c2 none], none⟩ :: cs.map pureEntry) init)).trace
      = Ev.invoke 0 a name data
          :: (invokesFrom name data cs 1
              ++ [Ev.invoke (cs.length + 1) c2 name data]) := by
  rw [subscribeList_init]
  simp only [List.length_map]
  have hslot : mapGet [(name, (⟨cs.length + 1, 0⟩ : ListenersMapEntry))] name
      = some ⟨cs.length + 1, 0⟩ := by simp [mapGet]
  rw [emitFn_slot rfl hslot]
  simp only [indexedFrom, Nat.zero_add]
  rw [show cs.length + 3 = Nat.succ (cs.length + 2) from rfl,
    emit_actor_subscribe_core penv name data a c2 (cs.length + 1)
      (indexedFrom (List.map pureEntry cs) 1) (by omega)
      (by
        intro p hp
        have := indexedFrom_key_bounds hp
        simp only [List.length_map] at this
        omega)
      (fun p hp => indexedFrom_pure cs 1 p hp)
      (indexedFrom_asc _ _) (cs.length + 2)
      (by simp [indexedFrom_length])]
  simp [indexedFrom_map_invoke]

/-- C4: a listener subscribed with predicate `p` has `p` evaluated exactly
once per matching `emit`, receiving the payload, and is invoked iff the
predicate returns `true`; a listener subscribed without a predicate is
always invoked. -/
theorem predicate_gating (penv : Nat → Nat → Bool) (name : String) (data p c : Nat) :
    (emitFn penv 2 name data ((subscribeFn name ⟨c, [], some p⟩ init).2)).trace
      = Ev.predCall p data (penv p data)
          :: (if penv p data then [Ev.invoke 0 c name data] else []) ∧
    (emitFn penv 2 name data ((subscribeFn name ⟨c, [], none⟩ init).2)).trace
      = [Ev.invoke 0 c name data] := by
  constructor
  · rw [subscribeFn_init]
    have hslot : mapGet [(name, (⟨1, 0⟩ : ListenersMapEntry))] name
        = some ⟨1, 0⟩ := by simp [mapGet]
    rw [emitFn_slot rfl hslot]
    cases hr : penv p data <;>
      simp [forEachLive, findNext, heapGet, cursorLt, visitEntry, hr,
        invokeEntry, pushEv, applyAct]
  · rw [subscribeFn_init]
    have hslot : mapGet [(name, (⟨1, 0⟩ : ListenersMapEntry))] name
        = some ⟨1, 0⟩ := by simp [mapGet]
    rw [emitFn_slot rfl hslot]
    simp [forEachLive, findNext, heapGet, cursorLt, visitEntry,
      invokeEntry, pushEv, applyAct]

section HandleLemmas

theorem entryLive_eq_none {st : EmitterState} {name : String} {i : Nat}
    (h : st.eventsStore = none) : entryLive st name i = false := by
  simp [entryLive, h]

theorem entryLive_eq_noslot {st : EmitterState} {store} {name : String} {i : Nat}
    (h : st.eventsStore = some store) (h2 : mapGet store name = none) :
    entryLive st name i = false := by
  simp [entryLive, h, h2]

theorem entryLive_eq_slot {st : EmitterState} {store} {slot : ListenersMapEntry}
    {name : String} {i : Nat}
    (h : st.eventsStore = some store) (h2 : mapGet store name = some slot) :
    entryLive st name i = mapHasKey (heapGet st.heap slot.listenersId) i := by
  simp [entryLive, h, h2]

theorem entryLive_congr {st st' : EmitterState} {name : String} {i : Nat}
    (h1 : st'.eventsStore = st.eventsStore) (h2 : st'.heap = st.heap) :
    entryLive st' name i = entryLive st name i := by
  unfold entryLive
  rw [h1, h2]

theorem unsubFn_fst {name : String} {i : Nat} {st : EmitterState} :
    (unsubFn name i st).1 = entryLive st name i := by
  cases hes : st.eventsStore with
  | none => rw [unsubFn_eq_none hes, entryLive_eq_none hes]
  | some store =>
      cases hg : mapGet store name with
      | none => rw [unsubFn_eq_noslot hes hg, entryLive_eq_noslot hes hg]
      | some slot => rw [unsubFn_eq_slot hes hg, entryLive_eq_slot hes hg]

theorem entryLive_after_unsub {name : String} {i : Nat} {st : EmitterState} :
    entryLive (unsubFn name i st).2 name i = false := by
  cases hes : st.eventsStore with
  | none => rw [unsubFn_eq_none hes]; exact entryLive_eq_none hes
  | some store =>
      cases hg : mapGet store name with
      | none => rw [unsubFn_eq_noslot hes hg]; exact entryLive_eq_noslot hes hg
      | some slot =>
          rw [unsubFn_eq_slot hes hg]
          by_cases hdel : mapDelete (heapGet st.heap slot.listenersId) i = []
          · by_cases hsd : mapDelete store name = []
            · exact entryLive_eq_none (by simp [hdel, hsd])
            · have h2 : mapGet (mapDelete store name) name = none :=
                mapGet_mapDelete_self
              exact entryLive_eq_noslot (by simp [hdel, hsd]) h2
          · have hsne : store ≠ [] := by
              intro hcontra
              rw [hcontra] at hg
              simp [mapGet] at hg
            refine (entryLive_eq_slot (by simp [hdel, hsne]) hg).trans ?_
            dsimp only
            by_cases hlt : slot.listenersId < st.heap.length
            · rw [heapGet_set_self hlt]
              exact mapHasKey_mapDelete_self
            · exfalso
              apply hdel
              rw [heapGet_ge (Nat.le_of_not_lt hlt)]
              rfl

theorem subscribeFn_trace {name : String} {e : ListenersEntry} {st : EmitterState} :
    (subscribeFn name e st).2.trace = st.trace := by
  cases hg : mapGet (st.eventsStore.getD []) name with
  | none => rw [subscribeFn_eq_fresh hg]
  | some slot => rw [subscribeFn_eq_slot hg]

theorem unsubFn_trace {name : String} {i : Nat} {st : EmitterState} :
    (unsubFn name i st).2.trace = st.trace := by
  cases hes : st.eventsStore with
  | none => rw [unsubFn_eq_none hes]
  | some store =>
      cases hg : mapGet store name with
      | none => rw [unsubFn_eq_noslot hes hg]
      | some slot => rw [unsubFn_eq_slot hes hg]

theorem unsubscribeAllFn_trace {n : Option String} {st : EmitterState} :
    (unsubscribeAllFn n st).trace = st.trace := by
  cases hes : st.eventsStore with
  | none => rw [unsubscribeAllFn_eq_none hes]
  | some store =>
      cases n with
      | none => rw [unsubscribeAllFn_eq_all hes]
      | some nm => rw [unsubscribeAllFn_eq_name hes]

end HandleLemmas

/-- C2: in every state reachable by any sequence of subscribe, emit,
handle-unsubscribe and unsubscribeAll calls, the registry reference is
either absent or maps at least one event name, and every slot present holds
at least one listener entry (with slots owning distinct map objects);
consequently, whenever no listener remains registered the registry
reference is absent, and `emit` on a state with an absent registry is a
total no-op — zero listener invocations and no failure. -/
theorem registry_never_holds_empty_containers (penv : Nat → Nat → Bool)
    (fuel : Nat) (ops : List Op) :
    Inv (runOps penv fuel ops init) ∧
    (listenerTotal (runOps penv fuel ops init) = 0 →
      (runOps penv fuel ops init).eventsStore = none) ∧
    (∀ st : EmitterState, st.eventsStore = none →
      ∀ f n d, emitFn penv f n d st = st) := by
  have hinv : Inv (runOps penv fuel ops init) := runOps_inv ops init Inv_init
  refine ⟨hinv, ?_, fun st h f n d => emitFn_none h⟩
  intro htot
  cases hes : (runOps penv fuel ops init).eventsStore with
  | none => rfl
  | some store =>
      obtain ⟨hne, hslots, _⟩ := hinv store hes
      cases store with
      | nil => exact absurd rfl hne
      | cons q rest =>
          exfalso
          have hq := hslots q (List.mem_cons_self _ _)
          have hlen : (heapGet (runOps penv fuel ops init).heap
              q.2.listenersId).length ≠ 0 := by
            intro h0
            exact hq.2 (List.length_eq_zero.1 h0)
          have hsum : listenerTotal (runOps penv fuel ops init)
              = (heapGet (runOps penv fuel ops init).heap q.2.listenersId).length
                + (rest.map (fun p =>
                    (heapGet (runOps penv fuel ops init).heap
                      p.2.listenersId).length)).sum := by
            simp [listenerTotal, hes]
          omega

theorem inv_distinct_ids {st : EmitterState} {store} {A B : String}
    {a b : ListenersMapEntry} (hinv : Inv st) (hes : st.eventsStore = some store)
    (hA : mapGet store A = some a) (hB : mapGet store B = some b) (hAB : A ≠ B) :
    a.listenersId ≠ b.listenersId := by
  obtain ⟨_, _, hpw⟩ := hinv store hes
  have hsym : Symmetric
      (fun (p q : String × ListenersMapEntry) =>
        p.2.listenersId ≠ q.2.listenersId) := fun x y hxy => Ne.symm hxy
  have hne : ((A, a) : String × ListenersMapEntry) ≠ (B, b) := by
    intro hcontra
    exact hAB (congrArg Prod.fst hcontra)
  exact hpw.forall hsym (mapGet_some_mem hA) (mapGet_some_mem hB) hne

/-- C8: for distinct event names `A ≠ B`, emitting `A` (with pure
listeners), calling an unsubscribe handle for `A`, or `unsubscribeAll A`,
leaves the listener entries registered under `B` — including their
registration indices — unchanged. -/
theorem event_isolation (penv : Nat → Nat → Bool) (fuel : Nat) (A B : String)
    (i d : Nat) (st : EmitterState) (hAB : A ≠ B) (hinv : Inv st)
    (hpure : PureState st) :
    eventListeners (emitFn penv fuel A d st) B = eventListeners st B ∧
    eventListeners (unsubFn A i st).2 B = eventListeners st B ∧
    eventListeners (unsubscribeAllFn (some A) st) B = eventListeners st B := by
  refine ⟨?_, ?_, ?_⟩
  · obtain ⟨h1, h2, _⟩ := @emitFn_pureFrame penv fuel A d st hpure
    exact eventListeners_congr h1 h2
  · cases hes : st.eventsStore with
    | none => rw [unsubFn_eq_none hes]
    | some store =>
        cases hg : mapGet store A with
        | none => rw [unsubFn_eq_noslot hes hg]
        | some slot =>
            rw [unsubFn_eq_slot hes hg]
            cases hB : mapGet store B with
            | none =>
                by_cases hdel : mapDelete (heapGet st.heap slot.listenersId) i = []
                · by_cases hsd : mapDelete store A = []
                  · simp [eventListeners, hes, hB, hdel, hsd]
                  · simp [eventListeners, hes, hB, hdel, hsd,
                      mapGet_mapDelete_ne hAB]
                · have hsne : store ≠ [] := by
                    intro hcontra
                    rw [hcontra] at hg
                    simp [mapGet] at hg
                  simp [eventListeners, hes, hB, hdel, hsne]
            | some slotB =>
                have hid : slot.listenersId ≠ slotB.listenersId :=
                  inv_distinct_ids hinv hes hg hB hAB
                by_cases hdel : mapDelete (heapGet st.heap slot.listenersId) i = []
                · have hsd : mapDelete store A ≠ [] := by
                    intro hcontra
                    have : (B, slotB) ∈ mapDelete store A :=
                      mem_mapDelete.2 ⟨mapGet_some_mem hB, fun h => hAB h.symm⟩
                    rw [hcontra] at this
                    simp at this
                  simp only [eventListeners, hes, hB, if_pos hdel, if_neg hsd]
                  rw [mapGet_mapDelete_ne hAB, hB]
                  exact heapGet_set_ne hid
                · have hsne : store ≠ [] := by
                    intro hcontra
                    rw [hcontra] at hg
                    simp [mapGet] at hg
                  simp only [eventListeners, hes, hB, if_neg hdel, if_neg hsne]
                  exact heapGet_set_ne hid
  · cases hes : st.eventsStore with
    | none => rw [unsubscribeAllFn_eq_none hes]
    | some store =>
        rw [unsubscribeAllFn_eq_name hes]
        cases hB : mapGet store B with
        | none =>
            by_cases hsd : mapDelete store A = []
            · simp [eventListeners, hes, hB, hsd]
            · simp [eventListeners, hes, hB, hsd, mapGet_mapDelete_ne hAB]
        | some slotB =>
            have hsd : mapDelete store A ≠ [] := by
              intro hcontra
              have : (B, slotB) ∈ mapDelete store A :=
                mem_mapDelete.2 ⟨mapGet_some_mem hB, fun h => hAB h.symm⟩
              rw [hcontra] at this
              simp at this
            simp only [eventListeners, hes, hB, if_neg hsd]
            rw [mapGet_mapDelete_ne hAB, hB]

section TameLemmas

/-- The interleaved operations the amended idempotence claim allows: any
emit, handle-unsubscribe or unsubscribeAll call, and any subscribe for a
different event name (with a side-effect-free listener).  A subscribe for
the same event name after the slot was emptied would recycle the
registration index captured by the handle. -/
def TameOp (name : String) : Op → Prop
  | .subscribeOp n e => n ≠ name ∧ e.acts = []
  | .unsubOp _ _ => True
  | .unsubscribeAllOp _ => True
  | .emitOp _ _ => True

theorem entryLive_subscribe_ne {name n : String} {e : ListenersEntry} {i : Nat}
    {st : EmitterState} (hn : n ≠ name) (hinv : Inv st)
    (habs : entryLive st name i = false) :
    entryLive (subscribeFn n e st).2 name i = false := by
  cases hg : mapGet (st.eventsStore.getD []) n with
  | none =>
      rw [subscribeFn_eq_fresh hg]
      cases hes : st.eventsStore with
      | none =>
          have h2 : mapGet (mapSet ((none : Option (List (String × ListenersMapEntry))).getD [])
              n ⟨1, st.heap.length⟩) name = none := by
            rw [mapGet_mapSet_ne hn]
            simp [mapGet]
          exact entryLive_eq_noslot rfl h2
      | some s =>
          cases hb : mapGet s name with
          | none =>
              have h2 : mapGet (mapSet ((some s).getD []) n ⟨1, st.heap.length⟩) name
                  = none := by
                rw [mapGet_mapSet_ne hn]
                simpa using hb
          

              exact entryLive_eq_noslot rfl h2
          | some slotN =>
              have h2 : mapGet (mapSet ((some s).getD []) n ⟨1, st.heap.length⟩) name
                  = some slotN := by
                rw [mapGet_mapSet_ne hn]
                simpa using hb
              refine (entryLive_eq_slot rfl h2).trans ?_
              obtain ⟨_, hslots, _⟩ := hinv s hes
              have hid := (hslots _ (mapGet_some_mem hb)).1
              dsimp only
              rw [heapGet_append_lt hid]
              rw [entryLive_eq_slot hes hb] at habs
              exact habs
  | some slotn =>
      rw [subscribeFn_eq_slot hg]
      cases hes : st.eventsStore with
      | none => rw [hes] at hg; simp [mapGet] at hg
      | some s =>
          rw [hes] at hg
          simp only [Option.getD_some] at hg
          cases hb : mapGet s name with
          | none =>
              have h2 : mapGet (mapSet ((some s).getD []) n
                  ⟨slotn.currentIndex + 1, slotn.listenersId⟩) name = none := by
                rw [mapGet_mapSet_ne hn]
                simpa using hb
              exact entryLive_eq_noslot rfl h2
          | some slotN =>
              have h2 : mapGet (mapSet ((some s).getD []) n
                  ⟨slotn.currentIndex + 1, slotn.listenersId⟩) name = some slotN := by
                rw [mapGet_mapSet_ne hn]
                simpa using hb
              refine (entryLive_eq_slot rfl h2).trans ?_
              have hdiff : slotn.listenersId ≠ slotN.listenersId :=
                inv_distinct_ids hinv hes hg hb hn
              dsimp only
              rw [heapGet_set_ne hdiff]
              rw [entryLive_eq_slot hes hb] at habs
              exact habs

theorem entryLive_unsub {name n : String} {i j : Nat} {st : EmitterState}
    (hinv : Inv st) (habs : entryLive st name i = false) :
    entryLive (unsubFn n j st).2 name i = false := by
  cases hes : st.eventsStore with
  | none => rw [unsubFn_eq_none hes]; exact habs
  | some store =>
      cases hg : mapGet store n with
      | none => rw [unsubFn_eq_noslot hes hg]; exact habs
      | some slotn =>
          rw [unsubFn_eq_slot hes hg]
          by_cases hdel : mapDelete (heapGet st.heap slotn.listenersId) j = []
          · by_cases hsd : mapDelete store n = []
            · exact entryLive_eq_none (by simp [hdel, hsd])
            · cases hb : mapGet (mapDelete store n) name with
              | none => exact entryLive_eq_noslot (by simp [hdel, hsd]) hb
              | some slotN =>
                  by_cases hnn : n = name
                  · subst hnn
                    rw [mapGet_mapDelete_self] at hb
                    cases hb
                  · have hb' : mapGet store name = some slotN := by
                      rwa [mapGet_mapDelete_ne hnn] at hb
                    refine (entryLive_eq_slot (by simp [hdel, hsd]) hb).trans ?_
                    dsimp only
                    have hdiff : slotn.listenersId ≠ slotN.listenersId :=
                      inv_distinct_ids hinv hes hg hb' hnn
                    rw [heapGet_set_ne hdiff]
                    rw [entryLive_eq_slot hes hb'] at habs
                    exact habs
          · have hsne : store ≠ [] := by
              intro hcontra
              rw [hcontra] at hg
              simp [mapGet] at hg
            cases hb : mapGet store name with
            | none => exact entryLive_eq_noslot (by simp [hdel, hsne]) hb
            | some slotN =>
                refine (entryLive_eq_slot (by simp [hdel, hsne]) hb).trans ?_
                dsimp only
                by_cases hnn : n = name
                · subst hnn
                  rw [hg] at hb
                  injection hb with hb
                  subst hb
                  by_cases hlt : slotn.listenersId < st.heap.length
                  · rw [heapGet_set_self hlt]
                    rw [entryLive_eq_slot hes hg] at habs
                    exact mapHasKey_mapDelete_of_false habs
                  · rw [heapGet_ge (by simpa using Nat.le_of_not_lt hlt)]
                    rfl
                · have hdiff : slotn.listenersId ≠ slotN.listenersId :=
                    inv_distinct_ids hinv hes hg hb hnn
                  rw [heapGet_set_ne hdiff]
                  rw [entryLive_eq_slot hes hb] at habs
                  exact habs

theorem entryLive_unsubAll {name : String} {nq : Option String} {i : Nat}
    {st : EmitterState} (habs : entryLive st name i = false) :
    entryLive (unsubscribeAllFn nq st) name i = false := by
  cases hes : st.eventsStore with
  | none => rw [unsubscribeAllFn_eq_none hes]; exact habs
  | some store =>
      cases nq with
      | none =>
          rw [unsubscribeAllFn_eq_all hes]
          exact entryLive_eq_none rfl
      | some nm =>
          rw [unsubscribeAllFn_eq_name hes]
          by_cases hsd : mapDelete store nm = []
          · exact entryLive_eq_none (by simp [hsd])
          · cases hb : mapGet (mapDelete store nm) name with
            | none => exact entryLive_eq_noslot (by simp [hsd]) hb
            | some slotN =>
                by_cases hnn : nm = name
                · subst hnn
                  rw [mapGet_mapDelete_self] at hb
                  cases hb
                · have hb' : mapGet store name = some slotN := by
                    rwa [mapGet_mapDelete_ne hnn] at hb
                  refine (entryLive_eq_slot (by simp [hsd]) hb).trans ?_
                  dsimp only
                  rw [entryLive_eq_slot hes hb'] at habs
                  exact habs

theorem tame_step (penv : Nat → Nat → Bool) (fuel : Nat) (name : String) (i : Nat)
    (op : Op) (st : EmitterState) (hinv : Inv st) (hpure : PureState st)
    (habs : entryLive st name i = false) (htame : TameOp name op) :
    Inv (runOp penv fuel st op) ∧ PureState (runOp penv fuel st op) ∧
    entryLive (runOp penv fuel st op) name i = false ∧
    ∃ delta, (runOp penv fuel st op).trace = st.trace ++ delta ∧
      ∀ ev ∈ delta, ∀ c d', ev ≠ Ev.invoke i c name d' := by
  cases op with
  | subscribeOp n e =>
      obtain ⟨hn, he⟩ := htame
      refine ⟨subscribeFn_inv hinv, subscribeFn_pure hpure he,
        entryLive_subscribe_ne hn hinv habs, [], ?_, by simp⟩
      show (subscribeFn n e st).2.trace = st.trace ++ []
      rw [subscribeFn_trace]
      simp
  | unsubOp n j =>
      refine ⟨unsubFn_inv hinv, unsubFn_pure hpure, entryLive_unsub hinv habs,
        [], ?_, by simp⟩
      show (unsubFn n j st).2.trace = st.trace ++ []
      rw [unsubFn_trace]
      simp
  | unsubscribeAllOp n =>
      refine ⟨unsubscribeAllFn_inv hinv, unsubscribeAllFn_pure hpure,
        entryLive_unsubAll habs, [], ?_, by simp⟩
      show (unsubscribeAllFn n st).trace = st.trace ++ []
      rw [unsubscribeAllFn_trace]
      simp
  | emitOp n d =>
      obtain ⟨h1, h2, delta, h3, h4⟩ := @emitFn_pureFrame penv fuel n d st hpure
      refine ⟨emitFn_inv hinv, emitFn_pure hpure, ?_, delta, h3, ?_⟩
      · rw [show entryLive (runOp penv fuel st (Op.emitOp n d)) name i
            = entryLive st name i from entryLive_congr h1 h2]
        exact habs
      · intro ev hev c d' hcontra
        rcases h4 ev hev with ⟨q, r, b, hq⟩ | ⟨k, c', hk, hlive⟩
        · rw [hcontra] at hq
          cases hq
        · rw [hk] at hcontra
          injection hcontra with h5 h6 h7 h8
          subst h5
          subst h7
          rw [habs] at hlive
          cases hlive

theorem tame_runOps (penv : Nat → Nat → Bool) (fuel : Nat) (name : String) (i : Nat) :
    ∀ (ops : List Op) (st : EmitterState), Inv st → PureState st →
      entryLive st name i = false → (∀ op ∈ ops, TameOp name op) →
      Inv (runOps penv fuel ops st) ∧ PureState (runOps penv fuel ops st) ∧
      entryLive (runOps penv fuel ops st) name i = false ∧
      ∃ delta, (runOps penv fuel ops st).trace = st.trace ++ delta ∧
        ∀ ev ∈ delta, ∀ c d', ev ≠ Ev.invoke i c name d' := by
  intro ops
  induction ops with
  | nil =>
      intro st hinv hpure habs _
      exact ⟨hinv, hpure, habs, [], by simp [runOps], by simp⟩
  | cons op rest ih =>
      intro st hinv hpure habs htame
      obtain ⟨hinv1, hpure1, habs1, delta1, ht1, hd1⟩ :=
        tame_step penv fuel name i op st hinv hpure habs
          (htame op (List.mem_cons_self _ _))
      obtain ⟨hinv2, hpure2, habs2, delta2, ht2, hd2⟩ :=
        ih (runOp penv fuel st op) hinv1 hpure1 habs1
          (fun o ho => htame o (List.mem_cons_of_mem _ ho))
      refine ⟨hinv2, hpure2, habs2, delta1 ++ delta2, ?_, ?_⟩
      · show (runOps penv fuel rest (runOp penv fuel st op)).trace
          = st.trace ++ (delta1 ++ delta2)
        rw [ht2, ht1]
        simp
      · intro ev hev
        rcases List.mem_append.1 hev with hev | hev
        · exact hd1 ev hev
        · exact hd2 ev hev

end TameLemmas

/-- C1 (corrected; counterexample `unsubscribe_handle_second_call_true`): an
unsubscribe handle is the pair of its captured event name and registration
index.  The first call returns `true` exactly when a listener entry is
still registered at that pair.  Afterwards the entry is gone, and — provided
the interleaved operations contain no subscribe for the same event name
(which, after the slot is emptied, would recreate the slot and recycle the
captured index) and all registered listeners are side-effect-free — every
subsequent call of the same handle returns `false`, and no later emit ever
invokes that registration again. -/
theorem unsubscribe_handle_idempotent_amended (penv : Nat → Nat → Bool)
    (fuel : Nat) (name : String) (i : Nat) (st0 : EmitterState) (ops : List Op)
    (hinv : Inv st0) (hpure : PureState st0)
    (htame : ∀ op ∈ ops, TameOp name op) :
    ((unsubFn name i st0).1 = entryLive st0 name i) ∧
    (unsubFn name i (runOps penv fuel ops (unsubFn name i st0).2)).1 = false ∧
    ∃ delta, (runOps penv fuel ops (unsubFn name i st0).2).trace
        = (unsubFn name i st0).2.trace ++ delta ∧
      ∀ ev ∈ delta, ∀ c d', ev ≠ Ev.invoke i c name d' := by
  obtain ⟨_, _, habs, hdelta⟩ := tame_runOps penv fuel name i ops
    (unsubFn name i st0).2 (unsubFn_inv hinv) (unsubFn_pure hpure)
    entryLive_after_unsub htame
  refine ⟨unsubFn_fst, ?_, hdelta⟩
  rw [unsubFn_fst]
  exact habs

/-- C1 counterexample: the claim "every subsequent call on the same handle
returns false" fails as stated.  Subscribe one listener to `"a"` (handle =
`("a", 0)`), call the handle once (`true`, slot removed, registry gone),
subscribe a fresh listener to `"a"` (the recreated slot hands out index 0
again) — the second call of the same handle also returns `true`, removing
the new listener. -/
theorem unsubscribe_handle_second_call_true :
    (unsubFn "a" 0 ((subscribeFn "a" (pureEntry 1) init).2)).1 = true ∧
    (unsubFn "a" 0
        ((subscribeFn "a" (pureEntry 2)
          ((unsubFn "a" 0 ((subscribeFn "a" (pureEntry 1) init).2)).2)).2)).1
      = true := by
  constructor
  · rfl
  · rfl

/-- C2 witness: the reachability invariant, the empty-registry conclusion
and the emit-no-op conclusion, instantiated on a concrete run that
subscribes one listener to `"a"` and removes it through its handle. -/
theorem registry_never_holds_empty_containers_witness :
    Inv (runOps (fun _ _ => true) 2
      [Op.subscribeOp "a" (pureEntry 1), Op.unsubOp "a" 0] init) ∧
    (runOps (fun _ _ => true) 2
      [Op.subscribeOp "a" (pureEntry 1), Op.unsubOp "a" 0] init).eventsStore = none ∧
    emitFn (fun _ _ => true) 2 "x" 0 init = init :=
  ⟨(registry_never_holds_empty_containers (fun _ _ => true) 2
      [Op.subscribeOp "a" (pureEntry 1), Op.unsubOp "a" 0]).1,
    (registry_never_holds_empty_containers (fun _ _ => true) 2
      [Op.subscribeOp "a" (pureEntry 1), Op.unsubOp "a" 0]).2.1 rfl,
    (registry_never_holds_empty_containers (fun _ _ => true) 2
      [Op.subscribeOp "a" (pureEntry 1), Op.unsubOp "a" 0]).2.2 init rfl 2 "x" 0⟩

/-- C8 witness: isolation of `"b"`'s listeners under an emit for `"a"`, a
handle-unsubscribe for `"a"`, and `unsubscribeAll "a"`, on a concrete state
with one listener under each name. -/
theorem event_isolation_witness :
    eventListeners (emitFn (fun _ _ => true) 2 "a" 5
        ((subscribeFn "b" (pureEntry 2) ((subscribeFn "a" (pureEntry 1) init).2)).2)) "b"
      = eventListeners
          ((subscribeFn "b" (pureEntry 2) ((subscribeFn "a" (pureEntry 1) init).2)).2) "b" ∧
    eventListeners (unsubFn "a" 0
        ((subscribeFn "b" (pureEntry 2) ((subscribeFn "a" (pureEntry 1) init).2)).2)).2 "b"
      = eventListeners
          ((subscribeFn "b" (pureEntry 2) ((subscribeFn "a" (pureEntry 1) init).2)).2) "b" ∧
    eventListeners (unsubscribeAllFn (some "a")
        ((subscribeFn "b" (pureEntry 2) ((subscribeFn "a" (pureEntry 1) init).2)).2)) "b"
      = eventListeners
          ((subscribeFn "b" (pureEntry 2) ((subscribeFn "a" (pureEntry 1) init).2)).2) "b" := by
  refine event_isolation (fun _ _ => true) 2 "a" "b" 0 5
    ((subscribeFn "b" (pureEntry 2) ((subscribeFn "a" (pureEntry 1) init).2)).2)
    (by decide) ?_ ?_
  · intro store h
    rw [show ((subscribeFn "b" (pureEntry 2)
        ((subscribeFn "a" (pureEntry 1) init).2)).2).eventsStore
      = some [("a", (⟨1, 0⟩ : ListenersMapEntry)),
          ("b", (⟨1, 1⟩ : ListenersMapEntry))] from rfl] at h
    injection h with h
    subst h
    refine ⟨by simp, ?_, ?_⟩
    · intro p hp
      simp at hp
      rcases hp with rfl | rfl
      · exact ⟨by decide, by decide⟩
      · exact ⟨by decide, by decide⟩
    · refine List.Pairwise.cons ?_ (List.pairwise_singleton _ _)
      intro q hq
      simp at hq
      subst hq
      decide
  · intro m hm p hp
    rw [show ((subscribeFn "b" (pureEntry 2)
        ((subscribeFn "a" (pureEntry 1) init).2)).2).heap
      = [[(0, pureEntry 1)], [(0, pureEntry 2)]] from rfl] at hm
    simp at hm
    rcases hm with rfl | rfl
    · simp at hp
      subst hp
      rfl
    · simp at hp
      subst hp
      rfl

/-- C1 witness: the amended idempotence statement instantiated on a
concrete handle `("a", 0)` with an emit, a subscribe to the other name
`"b"` and an `unsubscribeAll "a"` interleaved between the two calls. -/
theorem unsubscribe_handle_idempotent_amended_witness :
    ((unsubFn "a" 0 ((subscribeFn "a" (pureEntry 1) init).2)).1
        = entryLive ((subscribeFn "a" (pureEntry 1) init).2) "a" 0) ∧
    (unsubFn "a" 0 (runOps (fun _ _ => true) 2
        [Op.emitOp "a" 5, Op.subscribeOp "b" (pureEntry 7),
          Op.unsubscribeAllOp (some "a")]
        (unsubFn "a" 0 ((subscribeFn "a" (pureEntry 1) init).2)).2)).1 = false ∧
    ∃ delta, (runOps (fun _ _ => true) 2
        [Op.emitOp "a" 5, Op.subscribeOp "b" (pureEntry 7),
          Op.unsubscribeAllOp (some "a")]
        (unsubFn "a" 0 ((subscribeFn "a" (pureEntry 1) init).2)).2).trace
        = (unsubFn "a" 0 ((subscribeFn "a" (pureEntry 1) init).2)).2.trace ++ delta ∧
      ∀ ev ∈ delta, ∀ c d', ev ≠ Ev.invoke 0 c "a" d' := by
  refine unsubscribe_handle_idempotent_amended (fun _ _ => true) 2 "a" 0
    ((subscribeFn "a" (pureEntry 1) init).2)
    [Op.emitOp "a" 5, Op.subscribeOp "b" (pureEntry 7),
      Op.unsubscribeAllOp (some "a")] ?_ ?_ ?_
  · intro store h
    rw [show ((subscribeFn "a" (pureEntry 1) init).2).eventsStore
      = some [("a", (⟨1, 0⟩ : ListenersMapEntry))] from rfl] at h
    injection h with h
    subst h
    refine ⟨by simp, ?_, List.pairwise_singleton _ _⟩
    intro p hp
    simp at hp
    subst hp
    exact ⟨by decide, by decide⟩
  · intro m hm p hp
    rw [show ((subscribeFn "a" (pureEntry 1) init).2).heap
      = [[(0, pureEntry 1)]] from rfl] at hm
    simp at hm
    subst hm
    simp at hp
    subst hp
    rfl
  · intro op hop
    simp at hop
    rcases hop with rfl | rfl | rfl
    · exact True.intro
    · exact ⟨by decide, rfl⟩
    · exact True.intro

end Zohar
